import Mathlib

set_option maxHeartbeats 2000000

/-!
Verification model of the block-trades extraction tool
(`src/block_trades_parser.py`).  The Python functions are shallowly embedded
as executable Lean definitions over `List Char` / `String`; machine floats
are modelled as rationals, pandas DataFrames as lists of records, exceptions
as `Option` / `Except`, and the openpyxl worksheet as an association list of
cells.  Modelling notes that narrow the alphabet (for example: Python's
`str.upper` is total on Unicode, the model maps the ASCII and Greek letters
this tool manipulates and fixes every other character) are recorded on the
individual definitions.
-/

namespace BlockTrades

/-! ### Character-level helpers -/

/-- Whitespace class of Python's `str.strip`, `str.split` and the regex
class `\s` (ASCII subset; exotic Unicode spaces are outside the modelled
alphabet). -/
def isWs (c : Char) : Bool :=
  c == ' ' || c == '\t' || c == '\n' || c == '\r' || c == '\x0b' || c == '\x0c'

/-- Apply a character-substitution table; characters outside the table pass
through unchanged (the behaviour of `str.translate`). -/
def mapChar (tbl : List (Char × Char)) (c : Char) : Char :=
  match tbl.lookup c with
  | some d => d
  | none => c

/-- The fixed substitution table `_DEACCENT_TABLE` built by
`str.maketrans("ΪΫάέίόύήώϊϋΐΰΆΈΊΎΌΉΏ", "ΙΥαειουηωιυιυΑΕΙΥΟΗΩ")`. -/
def deaccentPairs : List (Char × Char) :=
  [('Ϊ', 'Ι'), ('Ϋ', 'Υ'), ('ά', 'α'), ('έ', 'ε'), ('ί', 'ι'), ('ό', 'ο'),
   ('ύ', 'υ'), ('ή', 'η'), ('ώ', 'ω'), ('ϊ', 'ι'), ('ϋ', 'υ'), ('ΐ', 'ι'),
   ('ΰ', 'υ'), ('Ά', 'Α'), ('Έ', 'Ε'), ('Ί', 'Ι'), ('Ύ', 'Υ'), ('Ό', 'Ο'),
   ('Ή', 'Η'), ('Ώ', 'Ω')]

def deaccentChar (c : Char) : Char := mapChar deaccentPairs c

/-- The single-character case mappings of Python `str.upper` on the
alphabets this tool manipulates: ASCII letters, the plain Greek alphabet
(including final sigma) and the single-accent Greek vowels.  All other
characters are fixed here; the multi-character expansions of Unicode
special casing are modelled separately by `upperSpecials`/`pyUpperChar`.
(The two characters ΐ and ΰ, whose Python uppercase also expands, are
removed by the de-accenting step before any uppercasing happens.) -/
def upperPairs : List (Char × Char) :=
  [('a', 'A'), ('b', 'B'), ('c', 'C'), ('d', 'D'), ('e', 'E'), ('f', 'F'),
   ('g', 'G'), ('h', 'H'), ('i', 'I'), ('j', 'J'), ('k', 'K'), ('l', 'L'),
   ('m', 'M'), ('n', 'N'), ('o', 'O'), ('p', 'P'), ('q', 'Q'), ('r', 'R'),
   ('s', 'S'), ('t', 'T'), ('u', 'U'), ('v', 'V'), ('w', 'W'), ('x', 'X'),
   ('y', 'Y'), ('z', 'Z'),
   ('α', 'Α'), ('β', 'Β'), ('γ', 'Γ'), ('δ', 'Δ'), ('ε', 'Ε'), ('ζ', 'Ζ'),
   ('η', 'Η'), ('θ', 'Θ'), ('ι', 'Ι'), ('κ', 'Κ'), ('λ', 'Λ'), ('μ', 'Μ'),
   ('ν', 'Ν'), ('ξ', 'Ξ'), ('ο', 'Ο'), ('π', 'Π'), ('ρ', 'Ρ'), ('ς', 'Σ'),
   ('σ', 'Σ'), ('τ', 'Τ'), ('υ', 'Υ'), ('φ', 'Φ'), ('χ', 'Χ'), ('ψ', 'Ψ'),
   ('ω', 'Ω'),
   ('ά', 'Ά'), ('έ', 'Έ'), ('ή', 'Ή'), ('ί', 'Ί'), ('ό', 'Ό'), ('ύ', 'Ύ'),
   ('ώ', 'Ώ'), ('ϊ', 'Ϊ'), ('ϋ', 'Ϋ')]

def upperChar (c : Char) : Char := mapChar upperPairs c

/-! ### The normalization pipeline of `norm_name` -/

/-- Python `s.strip()` on the character list. -/
def pyStripL (l : List Char) : List Char :=
  ((l.dropWhile isWs).reverse.dropWhile isWs).reverse

def pyStrip (s : String) : String := String.mk (pyStripL s.data)

/-- One pass of `re.sub(r"\s+", " ", _)`: every maximal whitespace run is
replaced by a single space.  The flag records whether the current position
is inside a run whose single space has already been emitted. -/
def collapseAux : Bool → List Char → List Char
  | _, [] => []
  | inRun, c :: cs =>
    if isWs c then
      (if inRun then collapseAux true cs else ' ' :: collapseAux true cs)
    else c :: collapseAux false cs

def collapseWs (l : List Char) : List Char := collapseAux false l

/-- `re.sub(r"\s*\(", " (", _)`: a maximal whitespace run followed by an
opening parenthesis — or a bare opening parenthesis — is replaced by
`" ("`.  `pend` holds the whitespace run read so far but not yet decided. -/
def sub3 : List Char → List Char → List Char
  | pend, [] => pend
  | pend, c :: cs =>
    if isWs c then sub3 (pend ++ [c]) cs
    else if c = '(' then ' ' :: '(' :: sub3 [] cs
    else pend ++ c :: sub3 [] cs

/-- The character class matched by `(ΚΟ|KO)` under `re.IGNORECASE`
(Greek kappa+omicron or Latin K+O, any case). -/
def koTok (a b : Char) : Bool :=
  (a == 'Κ' || a == 'κ' || a == 'K' || a == 'k') &&
  (b == 'Ο' || b == 'ο' || b == 'O' || b == 'o')

/-- The character class matched by `(ΚΑ|KA)` under `re.IGNORECASE`. -/
def kaTok (a b : Char) : Bool :=
  (a == 'Κ' || a == 'κ' || a == 'K' || a == 'k') &&
  (b == 'Α' || b == 'α' || b == 'A' || b == 'a')

/-- `re.sub(r"\((ΚΟ|KO)\)", "(KO)", _, flags=re.I)` (left-to-right,
non-overlapping; the replacement text uses Latin K and O). -/
def subKO : List Char → List Char
  | [] => []
  | '(' :: a :: b :: ')' :: rest =>
    if koTok a b then '(' :: 'K' :: 'O' :: ')' :: subKO rest
    else '(' :: subKO (a :: b :: ')' :: rest)
  | c :: cs => c :: subKO cs

/-- `re.sub(r"\((ΚΑ|KA)\)", "(KA)", _, flags=re.I)`. -/
def subKA : List Char → List Char
  | [] => []
  | '(' :: a :: b :: ')' :: rest =>
    if kaTok a b then '(' :: 'K' :: 'A' :: ')' :: subKA rest
    else '(' :: subKA (a :: b :: ')' :: rest)
  | c :: cs => c :: subKA cs

/-- The multi-character expansions of Python `str.upper` (Unicode special
casing) on the Greek characters whose uppercase reintroduces a character
of `_DEACCENT_TABLE`: the oxia-plus-ypogegrammeni vowels U+1FB4, U+1FC4
and U+1FF4 uppercase to tonos capital plus iota (`'ᾴ'.upper() == 'ΆΙ'`,
U+0386 U+0399, and likewise Ή/Ώ). -/
def upperSpecials : List (Char × List Char) :=
  [('ᾴ', ['Ά', 'Ι']),
   ('ῄ', ['Ή', 'Ι']),
   ('ῴ', ['Ώ', 'Ι'])]

/-- Python `str.upper` per character: a special-casing expansion where one
exists, otherwise the single-character mapping `upperChar`. -/
def pyUpperChar (c : Char) : List Char :=
  match List.lookup c upperSpecials with
  | some e => e
  | none => [upperChar c]

/-- Python `str.upper` on a character list. -/
def pyUpper (l : List Char) : List Char := (l.map pyUpperChar).flatten

/-- The composed pipeline of `norm_name` on character lists: de-accent,
collapse whitespace on the stripped string, force a single space before
each `(`, canonicalize the (ΚΟ)/(ΚΑ) share-class suffixes, uppercase. -/
def normChars (l : List Char) : List Char :=
  pyUpper (subKA (subKO (sub3 [] (collapseWs (pyStripL (l.map deaccentChar))))))

/-- `norm_name`: normalize company strings so names from the document and
the spreadsheet match.  (The Python `isinstance(s, str)` guard is vacuous
here since the argument is always a string.) -/
def norm_name (s : String) : String := String.mk (normChars s.data)

/-! ### Generic string helpers used by the parser -/

/-- `pat` begins the list `l`. -/
def leadsList : List Char → List Char → Bool
  | [], _ => true
  | _ :: _, [] => false
  | p :: ps, c :: cs => p == c && leadsList ps cs

/-- Python's substring test `pat in l`. -/
def containsSub (pat : List Char) : List Char → Bool
  | [] => leadsList pat []
  | c :: cs => leadsList pat (c :: cs) || containsSub pat cs

def containsSubstr (s pat : String) : Bool := containsSub pat.data s.data

/-- Python `str.splitlines` restricted to `\n` separators (the only line
separator occurring in the modelled inputs): split at `\n`, with no trailing
empty line when the text ends in `\n`. -/
def splitOnNl : List Char → List (List Char)
  | [] => [[]]
  | c :: cs =>
    if c = '\n' then [] :: splitOnNl cs
    else
      match splitOnNl cs with
      | h :: t => (c :: h) :: t
      | [] => [[c]]

def pySplitlines (s : String) : List String :=
  match s.data with
  | [] => []
  | l =>
    let parts := splitOnNl l
    (if parts.getLast? = some [] then parts.dropLast else parts).map
      (fun cs => String.mk cs)

/-- Python `str.split()` with no argument: split on whitespace runs,
discarding empty tokens.  `cur` is the current token, reversed. -/
def wordsAux : List Char → List Char → List String
  | cur, [] => if cur = [] then [] else [String.mk cur.reverse]
  | cur, c :: cs =>
    if isWs c then
      (if cur = [] then wordsAux [] cs else String.mk cur.reverse :: wordsAux [] cs)
    else wordsAux (c :: cur) cs

def pySplit (s : String) : List String := wordsAux [] s.data

/-- Join with a separator (Python `sep.join`). -/
def joinWith (sep : String) : List String → String
  | [] => ""
  | [x] => x
  | x :: xs => x ++ sep ++ joinWith sep xs

/-! ### Numeric token conversion (pandas `astype` after comma-stripping) -/

/-- `str.replace(",", "")`. -/
def stripCommas (s : String) : String := String.mk (s.data.filter (fun c => c ≠ ','))

def digitVal (c : Char) : Nat := c.toNat - 48

/-- Parse a non-empty all-digit list. -/
def parseDigits (l : List Char) : Option Nat :=
  if l = [] then none
  else if l.all Char.isDigit then
    some (l.foldl (fun a c => a * 10 + digitVal c) 0)
  else none

/-- Conversion applied by `astype("int64")` to a string cell: Python `int`,
modelled as optional sign plus a non-empty digit run after stripping
whitespace (digit-group underscores are not modelled). -/
def pyInt (s : String) : Option Int :=
  match pyStripL s.data with
  | '-' :: r => (parseDigits r).map (fun n => -(n : Int))
  | '+' :: r => (parseDigits r).map (fun n => (n : Int))
  | r => (parseDigits r).map (fun n => (n : Int))

/-- Mantissa forms accepted by Python `float`: `digits`, `digits.digits?`,
`.digits` (exponents, infinities and NaN are outside the modelled inputs).
The value is returned as a rational. -/
def pyFloatBody (l : List Char) : Option ℚ :=
  let intPart := l.takeWhile Char.isDigit
  let rest := l.dropWhile Char.isDigit
  match rest with
  | [] => if intPart = [] then none else (parseDigits intPart).map (fun n => (n : ℚ))
  | '.' :: fr =>
    if fr.all Char.isDigit ∧ (intPart ≠ [] ∨ fr ≠ []) then
      some ((intPart.foldl (fun a c => a * 10 + digitVal c) 0 : ℚ) +
            (fr.foldl (fun a c => a * 10 + digitVal c) 0 : ℚ) / (10 : ℚ) ^ fr.length)
    else none
  | _ => none

/-- Conversion applied by `astype("float64")` to a string cell, with the
float value modelled exactly as a rational. -/
def pyFloat (s : String) : Option ℚ :=
  match pyStripL s.data with
  | '-' :: r => (pyFloatBody r).map (fun q => -q)
  | '+' :: r => pyFloatBody r
  | r => pyFloatBody r

/-! ### The block-trade table parser -/

/-- A raw table row before numeric conversion (all fields as written). -/
structure RawRow where
  company : String
  volumeStr : String
  priceStr : String
  valueStr : String
  time : String
  note : String
deriving DecidableEq

/-- A converted trade row (one DataFrame record).  The `Note` column is
never converted by the code and stays a string. -/
structure Row where
  company : String
  volume : Int
  price : ℚ
  value : ℚ
  approvalTime : String
  note : String
deriving DecidableEq

/-- Attempt the regex `(\d{2}:\d{2}:\d{2})\s+(\d+)$` at the head of `l`:
an `HH:MM:SS` group followed by whitespace and a digit run ending the line.
Returns the time and note strings. -/
def timeAt (l : List Char) : Option (String × String) :=
  match l with
  | a :: b :: c :: d :: e :: f :: g :: h :: rest =>
    if a.isDigit ∧ b.isDigit ∧ c = ':' ∧ d.isDigit ∧ e.isDigit ∧ f = ':' ∧
       g.isDigit ∧ h.isDigit then
      let ws := rest.takeWhile isWs
      let ds := rest.dropWhile isWs
      if ws ≠ [] ∧ ds ≠ [] ∧ ds.all Char.isDigit then
        some (String.mk [a, b, c, d, e, f, g, h], String.mk ds)
      else none
    else none
  | _ => none

/-- `re.search` of the trailing-time pattern: the least character position
whose suffix matches, together with the matched groups (`m.start()`, time,
note). -/
def timeSearchAux : Nat → List Char → Option (Nat × String × String)
  | _, [] => none
  | i, c :: cs =>
    match timeAt (c :: cs) with
    | some (t, n) => some (i, t, n)
    | none => timeSearchAux (i + 1) cs

def timeSearch (l : List Char) : Option (Nat × String × String) := timeSearchAux 0 l

/-- The table-body scan of `parse_block_table_from_page`: stop at a blank
(after stripping) line or at a line containing the terminator marker;
otherwise extract a raw row from each line whose tail matches the time
pattern and whose left part splits into at least 4 tokens, and skip every
other line. -/
def scanRows : List String → List RawRow
  | [] => []
  | ln :: rest =>
    let l := pyStrip ln
    if l = "" ∨ containsSubstr l "Σημειώσεις" then []
    else
      match timeSearch l.data with
      | none => scanRows rest
      | some (i, t, n) =>
        match (pySplit (String.mk (pyStripL (l.data.take i)))).reverse with
        | valueS :: priceS :: volumeS :: compR =>
          if compR = [] then scanRows rest
          else
            { company := joinWith " " compR.reverse, volumeStr := volumeS,
              priceStr := priceS, valueStr := valueS, time := t, note := n } ::
            scanRows rest
        | _ => scanRows rest

/-- Numeric conversion of one raw row (`astype` on the three numeric
columns after comma-stripping); `none` models the `ValueError` raised by a
failing conversion. -/
def convertRow (r : RawRow) : Option Row := do
  let v ← pyInt (stripCommas r.volumeStr)
  let p ← pyFloat (stripCommas r.priceStr)
  let w ← pyFloat (stripCommas r.valueStr)
  pure { company := r.company, volume := v, price := p, value := w,
         approvalTime := r.time, note := r.note }

/-- The first line containing all three column-header fragments. -/
def isHeaderLine (ln : String) : Bool :=
  containsSubstr ln "Χρεόγραφα" && containsSubstr ln "Όγκος" &&
  containsSubstr ln "Ώρα έγκρισης"

/-- `parse_block_table_from_page`: locate the header line, scan the lines
after it, and convert the numeric columns (an empty table skips
conversion).  `none` models an uncaught conversion exception. -/
def parse_block_table_from_page (text : String) : Option (List Row) :=
  let lines := pySplitlines text
  match lines.findIdx? isHeaderLine with
  | none => some []
  | some i => (scanRows (lines.drop (i + 1))).mapM convertRow

/-! ### Date extraction (`extract_report_date`) -/

/-- Calendar dates as plain year/month/day triples (validity is checked at
construction, mirroring `datetime.date`). -/
structure Date where
  year : Nat
  month : Nat
  day : Nat
deriving DecidableEq

def isLeap (y : Nat) : Bool := (y % 4 = 0 && y % 100 ≠ 0) || y % 400 = 0

def daysInMonth (y m : Nat) : Nat :=
  if m = 2 then (if isLeap y then 29 else 28)
  else if m = 4 ∨ m = 6 ∨ m = 9 ∨ m = 11 then 30
  else 31

/-- `datetime.date(y, m, d)`: `none` models the `ValueError` raised on an
out-of-range component. -/
def mkDate (y m d : Nat) : Option Date :=
  if 1 ≤ y ∧ y ≤ 9999 ∧ 1 ≤ m ∧ m ≤ 12 ∧ 1 ≤ d ∧ d ≤ daysInMonth y m then
    some ⟨y, m, d⟩
  else none

def DOW_WORDS : List String :=
  ["Δευτέρα", "Τρίτη", "Τετάρτη", "Πέμπτη", "Παρασκευή", "Σάββατο", "Κυριακή"]

/-- Match one of the day-of-week alternatives at the head of `l`; returns
the remaining characters. -/
def dowAt (l : List Char) : Option (List Char) :=
  DOW_WORDS.findSome? (fun w =>
    if leadsList w.data l then some (l.drop w.data.length) else none)

/-- The character class `[A-ΩA-Za-zΪΫά-ώϊϋΐΰΏΉΈΆΌΊΎΪΫ]` of `DATE_RE`
(codepoint ranges as written in the source pattern). -/
def dateLetter (c : Char) : Bool :=
  let n := c.toNat
  (0x41 ≤ n && n ≤ 0x3A9) || (0x3AC ≤ n && n ≤ 0x3CE) ||
  n == 0x3AA || n == 0x3AB || n == 0x3CA || n == 0x3CB || n == 0x390 ||
  n == 0x3B0 || n == 0x386 || n == 0x388 || n == 0x389 || n == 0x38A ||
  n == 0x38C || n == 0x38E

/-- Match `\d{1,2}` followed by `\s+` (with the regex backtracking resolved:
a one-digit day can only be followed by whitespace).  Returns the day and
the characters after the whitespace run. -/
def dayAt (l : List Char) : Option (Nat × List Char) :=
  match l with
  | d1 :: d2 :: rest =>
    if d1.isDigit then
      if d2.isDigit then
        if rest.takeWhile isWs ≠ [] then
          some (digitVal d1 * 10 + digitVal d2, rest.dropWhile isWs)
        else none
      else if isWs d2 then some (digitVal d1, (d2 :: rest).dropWhile isWs)
      else none
    else none
  | _ => none

/-- Attempt the full `DATE_RE` pattern at the head of `l`: day-of-week,
optional comma, whitespace, 1–2 digit day, whitespace, month word, comma,
whitespace, 4-digit year.  Returns (day, month name, year). -/
def matchDateAt (l : List Char) : Option (Nat × String × Nat) := do
  let r1 ← dowAt l
  let r2 := match r1 with
    | ',' :: t => t
    | t => t
  if (r2.takeWhile isWs) = [] then none
  else do
    let (day, r3) ← dayAt (r2.dropWhile isWs)
    let ms := r3.takeWhile dateLetter
    if ms = [] then none
    else
      match r3.dropWhile dateLetter with
      | ',' :: a2 =>
        if (a2.takeWhile isWs) = [] then none
        else
          match a2.dropWhile isWs with
          | y1 :: y2 :: y3 :: y4 :: _ =>
            if y1.isDigit ∧ y2.isDigit ∧ y3.isDigit ∧ y4.isDigit then
              some (day, String.mk ms,
                    ((digitVal y1 * 10 + digitVal y2) * 10 + digitVal y3) * 10 +
                    digitVal y4)
            else none
          | _ => none
      | _ => none

/-- `DATE_RE.search`: the leftmost position where the pattern matches. -/
def dateSearchL : List Char → Option (Nat × String × Nat)
  | [] => none
  | c :: cs =>
    match matchDateAt (c :: cs) with
    | some r => some r
    | none => dateSearchL cs

def GREEK_MONTHS : List (String × Nat) :=
  [("Ιανουαρίου", 1), ("Φεβρουαρίου", 2), ("Μαρτίου", 3), ("Απριλίου", 4),
   ("Μαΐου", 5), ("Μαίου", 5), ("Ιουνίου", 6), ("Ιουλίου", 7),
   ("Αυγούστου", 8), ("Σεπτεμβρίου", 9), ("Οκτωβρίου", 10),
   ("Νοεμβρίου", 11), ("Δεκεμβρίου", 12)]

def FALLBACK_MONTHS : List (String × Nat) :=
  [("Ιανουαριου", 1), ("Φεβρουαριου", 2), ("Μαρτιου", 3), ("Απριλιου", 4),
   ("Μαιου", 5), ("Ιουνιου", 6), ("Ιουλιου", 7), ("Αυγουστου", 8),
   ("Σεπτεμβριου", 9), ("Οκτωβριου", 10), ("Νοεμβριου", 11),
   ("Δεκεμβριου", 12)]

/-- Primary month lookup, then the diacritic-free fallback table applied to
the de-accented month name. -/
def monthLookup (mn : String) : Option Nat :=
  match GREEK_MONTHS.lookup mn with
  | some m => some m
  | none => FALLBACK_MONTHS.lookup (String.mk (mn.data.map deaccentChar))

/-- `extract_report_date` over the per-page texts: first page whose first
`DATE_RE` match has a resolvable month wins; a match with an invalid
day/month combination raises (`Except.error`); otherwise `none` after all
pages. -/
def extract_report_date : List String → Except Unit (Option Date)
  | [] => .ok none
  | p :: rest =>
    match dateSearchL p.data with
    | none => extract_report_date rest
    | some (d, mn, y) =>
      match monthLookup mn with
      | none => extract_report_date rest
      | some m =>
        match mkDate y m d with
        | some dd => .ok (some dd)
        | none => .error ()

/-! ### Page selection and whole-document extraction -/

def BLOCK_KEYWORDS : List String :=
  ["Στοιχεία Συναλλαγών Πακέτων",
   "Πίνακας Προσυμφωνημένων Συναλλαγών",
   "Χρεόγραφα Όγκος πακέτου Τιμή πακέτου Αξία πακέτου Ώρα έγκρισης"]

def locate_block_trade_pages (pages : List String) : List String :=
  pages.filter (fun t => BLOCK_KEYWORDS.any (fun k => containsSubstr t k))

/-- `extract_block_trades`: resolve the report date, parse every keyword
page, and concatenate the rows (each row is stamped with the single
document date, returned here alongside the rows).  `Except.error` models an
uncaught exception from date resolution or numeric conversion. -/
def extract_block_trades (pages : List String) :
    Except Unit (Option Date × List Row) := do
  let rd ← extract_report_date pages
  match (locate_block_trade_pages pages).mapM parse_block_table_from_page with
  | none => .error ()
  | some frames => .ok (rd, frames.flatten)

/-! ### The worksheet model -/

/-- Cell values as written or read by the tool: empty (Python `None`),
strings (including Excel formulas), integers, floats, and date-time values
(the time-of-day components as written by `datetime.combine`). -/
inductive Cell
  | empty
  | str (s : String)
  | int (z : Int)
  | num (q : ℚ)
  | dtm (d : Date) (hh mm ss : Nat)
deriving DecidableEq

/-- A worksheet: an association list from (row, column) to cell values;
the most recent write shadows earlier ones. -/
structure Ws where
  cells : List ((Nat × Nat) × Cell)
deriving DecidableEq

def getCell (ws : Ws) (r c : Nat) : Option Cell :=
  (ws.cells.find? (fun e => e.1 = (r, c))).map (fun e => e.2)

def setCell (ws : Ws) (r c : Nat) (v : Cell) : Ws := ⟨((r, c), v) :: ws.cells⟩

/-- `ws.max_row` (at least 1, like openpyxl on an empty sheet). -/
def maxRowWs (ws : Ws) : Nat := ws.cells.foldr (fun e a => max e.1.1 a) 1

/-- `ws.max_column` (at least 1). -/
def maxColWs (ws : Ws) : Nat := ws.cells.foldr (fun e a => max e.1.2 a) 1

/-! ### Ledger row lookup (`find_or_create_date_row`) -/

/-- Lenient day-first string date parse, a simplified stand-in for
`pd.to_datetime(_, dayfirst=True)` on strings: `D.M.YYYY` or `D/M/YYYY`. -/
def parseDayfirst (s : String) : Option Date :=
  let seps := fun c => c = '.' ∨ c = '/'
  let d1 := s.data.takeWhile (fun c => ¬ seps c)
  let r1 := s.data.dropWhile (fun c => ¬ seps c)
  match r1 with
  | _ :: r1t =>
    let d2 := r1t.takeWhile (fun c => ¬ seps c)
    let r2 := r1t.dropWhile (fun c => ¬ seps c)
    match r2 with
    | _ :: d3 => do
      let dd ← parseDigits d1
      let mm ← parseDigits d2
      let yy ← parseDigits d3
      mkDate yy mm dd
    | [] => none
  | [] => none

/-- The date-only value `pd.to_datetime(val, dayfirst=True).date()` of a
cell, `none` when the conversion raises.  Numeric cells are interpreted by
pandas as nanosecond offsets from the 1970 epoch; the ledger's first column
holds date-times, so numeric cells are modelled coarsely as the epoch
date. -/
def cellToDate : Cell → Option Date
  | .dtm d _ _ _ => some d
  | .str s => parseDayfirst s
  | .int _ => some ⟨1970, 1, 1⟩
  | .num _ => some ⟨1970, 1, 1⟩
  | .empty => none

/-- The scan of data rows 3..max_row comparing column 1 to the target
date. -/
def findDateRow (ws : Ws) (target : Date) : Option Nat :=
  (List.range' 3 (maxRowWs ws - 2)).find? (fun r =>
    match getCell ws r 1 with
    | none => false
    | some v => cellToDate v = some target)

/-- `find_or_create_date_row`: return the first matching data row, else
append a row at `max_row + 1` writing the target date (at midnight) into
column 1.  Returns the row index and the updated sheet. -/
def find_or_create_date_row (ws : Ws) (target : Date) : Nat × Ws :=
  match findDateRow ws target with
  | some r => (r, ws)
  | none =>
    let r := maxRowWs ws + 1
    (r, setCell ws r 1 (Cell.dtm target 0 0 0))

/-! ### The company header map (`read_company_header_positions`) -/

/-- `str(value)` on a cell (row-2 headers are strings in practice; the
other constructors get a plain rendering). -/
def natToStrAux : Nat → Nat → List Char
  | 0, _ => []
  | _ + 1, 0 => []
  | fuel + 1, n => natToStrAux fuel (n / 10) ++ [Char.ofNat (48 + n % 10)]

def natToStr (n : Nat) : String :=
  if n = 0 then "0" else String.mk (natToStrAux (n + 1) n)

def intToStr (z : Int) : String :=
  if z < 0 then "-" ++ natToStr z.natAbs else natToStr z.natAbs

def pad2 (n : Nat) : String := if n < 10 then "0" ++ natToStr n else natToStr n

def pad4 (n : Nat) : String :=
  if n < 10 then "000" ++ natToStr n
  else if n < 100 then "00" ++ natToStr n
  else if n < 1000 then "0" ++ natToStr n
  else natToStr n

def cellStr : Cell → String
  | .empty => ""
  | .str s => s
  | .int z => intToStr z
  | .num q => toString q
  | .dtm d hh mm ss =>
    pad4 d.year ++ "-" ++ pad2 d.month ++ "-" ++ pad2 d.day ++ " " ++
    pad2 hh ++ ":" ++ pad2 mm ++ ":" ++ pad2 ss

/-- Python truthiness of a cell value (`if header and ...`). -/
def cellTruthy : Cell → Bool
  | .empty => false
  | .str s => s ≠ ""
  | .int z => z ≠ 0
  | .num q => q ≠ 0
  | .dtm _ _ _ _ => true

/-- A header-map entry: normalized name ↦ (anchor column, raw header
text). -/
abbrev HEntry := String × Nat × String

/-- Python-dict insertion: an existing key keeps its position but gets the
new value; a new key is appended. -/
def dictUpsert (m : List HEntry) (k : String) (v : Nat × String) : List HEntry :=
  if m.any (fun e => e.1 = k) then
    m.map (fun e => if e.1 = k then (k, v) else e)
  else m ++ [(k, v)]

/-- The qualifying header entry at column `c` of row 2, if any: a truthy
cell whose stripped string form is non-empty, keyed by its normalized
text. -/
def headerEntryAt (ws : Ws) (c : Nat) : Option (String × String) :=
  match getCell ws 2 c with
  | none => none
  | some cell =>
    if cellTruthy cell ∧ pyStrip (cellStr cell) ≠ "" then
      some (norm_name (pyStrip (cellStr cell)), pyStrip (cellStr cell))
    else none

/-- The stride-4 column positions 2, 6, 10, … up to `max_column`. -/
def strideCols (maxCol : Nat) : List Nat := List.range' 2 ((maxCol + 2) / 4) 4

def buildHeaderMap (ws : Ws) : List Nat → List HEntry → List HEntry
  | [], m => m
  | c :: cs, m =>
    buildHeaderMap ws cs
      (match headerEntryAt ws c with
       | none => m
       | some (k, t) => dictUpsert m k (c, t))

/-- `read_company_header_positions`: scan row 2 at columns 2, 6, 10, …,
collecting `{normalized_name: (column, raw_text)}` in a Python dict. -/
def read_company_header_positions (ws : Ws) : List HEntry :=
  buildHeaderMap ws (strideCols (maxColWs ws)) []

/-! ### Per-company aggregation and the ledger writes -/

/-- A company's ordered volumes and prices (encounter order). -/
structure Group where
  volumes : List Int
  prices : List ℚ
deriving DecidableEq

abbrev Trades := List (String × Group)

def lookupTrades (tr : Trades) (k : String) : Option Group :=
  (tr.find? (fun e => e.1 = k)).map (fun e => e.2)

/-- Append one trade to a company's group (inserting the company on first
encounter), preserving order. -/
def addTrade (tr : Trades) (k : String) (v : Int) (p : ℚ) : Trades :=
  if tr.any (fun e => e.1 = k) then
    tr.map (fun e => if e.1 = k then (k, Group.mk (e.2.volumes ++ [v]) (e.2.prices ++ [p])) else e)
  else tr ++ [(k, Group.mk [v] [p])]

/-- Group the parsed rows by normalized company name, volumes and prices in
encounter order (the `groupby` in `main`; group-key iteration order is
irrelevant because the result is only used for lookups). -/
def groupTrades (rows : List Row) : Trades :=
  rows.foldl (fun m r => addTrade m (norm_name r.company) r.volume r.price) []

/-- `price_list_greek` helper: `f"{p:.2f}"` — fixed 2-decimal rendering
with round-half-to-even (the rounding applied to the modelled rational
value; negative zero display is not modelled). -/
def ratFloor (q : ℚ) : Int := Int.fdiv q.num (q.den : Int)

def roundHalfEven (q : ℚ) : Int :=
  let f := ratFloor q
  let r := q - (f : ℚ)
  if r < 1 / 2 then f
  else if 1 / 2 < r then f + 1
  else if f % 2 = 0 then f else f + 1

def fmt2 (q : ℚ) : String :=
  let n := roundHalfEven (q * 100)
  let sgn := if n < 0 then "-" else ""
  sgn ++ natToStr (n.natAbs / 100) ++ "." ++ pad2 (n.natAbs % 100)

def dotToComma (s : String) : String :=
  String.mk (s.data.map (fun c => if c = '.' then ',' else c))

/-- `price_list_greek`: dash-joined prices, two decimals, comma as the
decimal separator. -/
def price_list_greek (prices : List ℚ) : String :=
  joinWith "-" (prices.map (fun p => dotToComma (fmt2 p)))

/-- `volume_formula`: `None` for no volumes, the bare number for a single
volume, and the Excel summation formula string otherwise. -/
def volume_formula : List Int → Cell
  | [] => Cell.empty
  | [v] => Cell.int v
  | vs => Cell.str ("=" ++ joinWith "+" (vs.map intToStr))

/-- One company's writes inside `fill_row`: the date always goes into the
anchor column; when the company has trades, anchor+1..3 get the volume
formula, the trade count and the dash-joined price list. -/
def fillOne (ws : Ws) (rowIdx : Nat) (e : HEntry) (tr : Trades) (d : Date) : Ws :=
  let a := e.2.1
  let ws1 := setCell ws rowIdx a (Cell.dtm d 0 0 0)
  match lookupTrades tr e.1 with
  | none => ws1
  | some g =>
    let ws2 := setCell ws1 rowIdx (a + 1) (volume_formula g.volumes)
    let ws3 := setCell ws2 rowIdx (a + 2) (Cell.int g.volumes.length)
    setCell ws3 rowIdx (a + 3) (Cell.str (price_list_greek g.prices))

/-- `fill_row`: iterate the header map in order, applying `fillOne`. -/
def fill_row : Ws → Nat → List HEntry → Trades → Date → Ws
  | ws, _, [], _, _ => ws
  | ws, r, e :: es, tr, d => fill_row (fillOne ws r e tr d) r es tr d

/-! ### The audit sheet and the main pipeline -/

abbrev Workbook := List (String × Ws)

def wbLookup (wb : Workbook) (name : String) : Option Ws :=
  (wb.find? (fun e => e.1 = name)).map (fun e => e.2)

def wbSet (wb : Workbook) (name : String) (ws : Ws) : Workbook :=
  wb.map (fun e => if e.1 = name then (name, ws) else e)

def auditHeader : List String :=
  ["Company", "Volume", "Price", "Value", "ApprovalTime", "Note", "Matched"]

def auditRowCells (r : Row) (hp : List HEntry) : List Cell :=
  [Cell.str r.company, Cell.int r.volume, Cell.num r.price, Cell.num r.value,
   Cell.str r.approvalTime, Cell.str r.note,
   Cell.str (if hp.any (fun e => e.1 = norm_name r.company) then "Yes" else "No")]

def writeRowCells (ws : Ws) (r : Nat) : Nat → List Cell → Ws
  | _, [] => ws
  | c, v :: vs => writeRowCells (setCell ws r c v) r (c + 1) vs

def writeAuditRows (ws : Ws) (hp : List HEntry) : Nat → List Row → Ws
  | _, [] => ws
  | i, r :: rs => writeAuditRows (writeRowCells ws (i + 2) 1 (auditRowCells r hp)) hp (i + 1) rs

/-- `write_pdf_sheet`: replace any sheet of the same name by a fresh sheet
holding the 7-column header row and one row per record with the matched
flag (fills and column widths are cosmetic and not modelled). -/
def write_pdf_sheet (wb : Workbook) (name : String) (rows : List Row)
    (hp : List HEntry) : Workbook :=
  let ws0 := writeRowCells ⟨[]⟩ 1 1 (auditHeader.map Cell.str)
  let ws1 := writeAuditRows ws0 hp 0 rows
  (wb.filter (fun e => e.1 ≠ name)) ++ [(name, ws1)]

/-- Possible outcomes of one run of `main` after the two file prompts. -/
inductive RunResult
  | parseFail
  | noTrades
  | dateError
  | masterMissing
  | saved (wb : Workbook) (outName : String)
deriving DecidableEq

/-- The `main` pipeline from the parsed document to the saved workbook:
extraction (exceptions propagate), the empty-table early exit, the
`strftime` on the resolved date (raising when no date was resolved —
before any workbook access), the Master-sheet check, row lookup/creation,
header mapping, aggregation, the ledger writes and the audit sheet. -/
def run_main (pages : List String) (wb : Workbook) : RunResult :=
  match extract_block_trades pages with
  | .error _ => .parseFail
  | .ok (rd, rows) =>
    if rows = [] then .noTrades
    else
      match rd with
      | none => .dateError
      | some d =>
        let label := pad2 d.day ++ "." ++ pad2 d.month ++ "." ++ pad4 d.year
        match wbLookup wb "Master" with
        | none => .masterMissing
        | some ws =>
          let rw := find_or_create_date_row ws d
          let hp := read_company_header_positions rw.2
          let tr := groupTrades rows
          let ws2 := fill_row rw.2 rw.1 hp tr d
          let wb1 := wbSet wb "Master" ws2
          let wb2 := write_pdf_sheet wb1 label rows hp
          .saved wb2 ("Block Trades_updated as of " ++ label ++ ".xlsx")

/-- Invariant of the header-map construction: keys are unique, every entry
stems from a qualifying processed column, and the recorded column is the
largest processed column carrying that normalized key. -/
def headerInv (ws : Ws) (processed : List Nat) (m : List HEntry) : Prop :=
  (m.map (fun e => e.1)).Nodup ∧
  ∀ k c t, (k, c, t) ∈ m →
    (c ∈ processed ∧ headerEntryAt ws c = some (k, t)) ∧
    ∀ c2 ∈ processed, ∀ t2, headerEntryAt ws c2 = some (k, t2) → c2 ≤ c

/-- A worksheet whose row-2 headers at columns 2 and 10 normalize to the
same key (used to exhibit the shadowing behaviour concretely). -/
def wsCollide : Ws :=
  ⟨[((2, 2), Cell.str " αλφα "), ((2, 6), Cell.str "ΒΗΤΑ"),
    ((2, 10), Cell.str "ΑΛΦΑ")]⟩

/-! ### Positional normal-form predicates for the idempotence development -/

/-- Every whitespace character is a plain space. -/
def wsSpP (l : List Char) : Prop :=
  ∀ i c, l.get? i = some c → isWs c = true → c = ' '

/-- No two adjacent spaces. -/
def noAdjP (l : List Char) : Prop :=
  ∀ i, ¬(l.get? i = some ' ' ∧ l.get? (i + 1) = some ' ')

/-- Every opening parenthesis is immediately preceded by a space. -/
def parenSpacedP (l : List Char) : Prop :=
  ∀ i, l.get? i = some '(' → 1 ≤ i ∧ l.get? (i - 1) = some ' '

/-- Every opening parenthesis at a positive position is preceded by a
space (the head is unconstrained). -/
def parenTailP (l : List Char) : Prop :=
  ∀ i, l.get? (i + 1) = some '(' → l.get? i = some ' '

/-- A space never ends the string. -/
def noTrailP (l : List Char) : Prop :=
  ∀ i, l.get? i = some ' ' → l.get? (i + 1) ≠ none

/-- A leading space is followed by an opening parenthesis. -/
def headOkP (l : List Char) : Prop := l.get? 0 = some ' ' → l.get? 1 = some '('

def headNonWs (l : List Char) : Prop := ∀ c, l.get? 0 = some c → isWs c = false

def lastNonWs (l : List Char) : Prop := ∀ c, l.getLast? = some c → isWs c = false

/-- The space structure shared by every `norm_name` output. -/
def spaceInv (l : List Char) : Prop :=
  wsSpP l ∧ noAdjP l ∧ parenSpacedP l ∧ noTrailP l ∧ headOkP l

/-- Every parenthesized KO-class pair is already the canonical `(KO)`. -/
def koCanonP (l : List Char) : Prop :=
  ∀ i a b, l.get? i = some '(' → l.get? (i + 1) = some a →
    l.get? (i + 2) = some b → l.get? (i + 3) = some ')' →
    koTok a b = true → a = 'K' ∧ b = 'O'

/-- Every parenthesized KA-class pair is already the canonical `(KA)`. -/
def kaCanonP (l : List Char) : Prop :=
  ∀ i a b, l.get? i = some '(' → l.get? (i + 1) = some a →
    l.get? (i + 2) = some b → l.get? (i + 3) = some ')' →
    kaTok a b = true → a = 'K' ∧ b = 'A'

/-- Two optional characters agree, or both are letters (not space, not a
parenthesis): the pointwise effect of the share-class/uppercase rewrites. -/
def charShapeOK (x y : Option Char) : Prop :=
  x = y ∨ (∃ c c2, x = some c ∧ y = some c2 ∧ isWs c = false ∧ c ≠ '(' ∧
    c ≠ ')' ∧ isWs c2 = false ∧ c2 ≠ '(' ∧ c2 ≠ ')')

/-- Drop one leading space. -/
def behead (l : List Char) : List Char :=
  match l with
  | ' ' :: u => u
  | _ => l

/-- Re-add the space before a leading parenthesis. -/
def addLead (l : List Char) : List Char :=
  match l with
  | '(' :: _ => ' ' :: l
  | _ => l

/-! ### Basic lemmas about the worksheet model -/

attribute [local semireducible] Rat.mul Rat.inv Rat.add Rat.sub Rat.ofScientific

theorem getCell_setCell_same (ws : Ws) (r c : Nat) (v : Cell) :
    getCell (setCell ws r c v) r c = some v := by
  simp [getCell, setCell, List.find?]

theorem getCell_setCell_ne (ws : Ws) (r c r2 c2 : Nat) (v : Cell)
    (h : (r2, c2) ≠ (r, c)) :
    getCell (setCell ws r c v) r2 c2 = getCell ws r2 c2 := by
  simp only [getCell, setCell]
  rw [List.find?_cons_of_neg _ (by simpa using Ne.symm h)]

theorem maxRowWs_setCell (ws : Ws) (r c : Nat) (v : Cell) :
    maxRowWs (setCell ws r c v) = max r (maxRowWs ws) := rfl

/-! ### Claim theorems -/

/-- **C1.** The spec scenario: the header-fragment line followed by
`"ΕΛΛΑΚΤΩΡ ΑΕ 1.000 2,50 2.500,00 12:30:15 1"` should parse to one record
with volume 1000, price 2.50, value 2500.00.  The code instead strips
commas (not the Greek dot thousands-separators), so the volume token stays
`"1.000"` and the `astype("int64")` conversion raises — modelled by the
parse returning `none` instead of the claimed record. -/
theorem c1_scenario_row_raises :
    parse_block_table_from_page
      ("Χρεόγραφα Όγκος πακέτου Τιμή πακέτου Αξία πακέτου Ώρα έγκρισης" ++
       "\nΕΛΛΑΚΤΩΡ ΑΕ 1.000 2,50 2.500,00 12:30:15 1") = none ∧
    stripCommas "1.000" = "1.000" ∧ pyInt "1.000" = none := by
  refine ⟨by decide, by decide, by decide⟩

/-- **C2.** On the otherwise well-formed line
`"ΑΛΦΑ ΑΕ 1000 2,50 2500,00 12:30:15 1"` (price 2,50 and value 2.500,00 in
the document's comma-decimal notation), the parser emits a row whose price
is the silently coerced value 250 (and value 250000) — off by a power of
ten — contradicting the requirement that such a row be dropped or the
failure propagated. -/
theorem c2_silent_coercion :
    parse_block_table_from_page
      ("Χρεόγραφα Όγκος πακέτου Τιμή πακέτου Αξία πακέτου Ώρα έγκρισης" ++
       "\nΑΛΦΑ ΑΕ 1000 2,50 2500,00 12:30:15 1") =
      some [{ company := "ΑΛΦΑ ΑΕ", volume := 1000, price := 250,
              value := 250000, approvalTime := "12:30:15", note := "1" }] ∧
    (250 : ℚ) ≠ 25 / 10 := by
  refine ⟨by decide, by decide⟩

theorem joinWith_concat (sep : String) (xs : List String) (x : String) :
    joinWith sep (xs ++ [x]) =
      if xs = [] then x else joinWith sep xs ++ (sep ++ x) := by
  induction xs with
  | nil => simp [joinWith]
  | cons a as ih =>
    cases as with
    | nil => simp [joinWith, String.append_assoc]
    | cons b bs =>
      simp only [List.cons_append, joinWith, List.append_eq] at ih ⊢
      rw [ih]
      simp [String.append_assoc]

/-- **C6.** `price_list_greek` renders [12.5, 7.03] as exactly
`"12,50-7,03"`, and appending one more price appends exactly one dash and
that price's 2-decimal comma rendering (so the string lists the prices in
encounter order). -/
theorem c6_price_list :
    price_list_greek [(12.5 : ℚ), (7.03 : ℚ)] = "12,50-7,03" ∧
    ∀ (ps : List ℚ) (p : ℚ),
      price_list_greek (ps ++ [p]) =
        if ps = [] then dotToComma (fmt2 p)
        else price_list_greek ps ++ ("-" ++ dotToComma (fmt2 p)) := by
  constructor
  · decide
  · intro ps p
    have h := joinWith_concat "-" (ps.map (fun q => dotToComma (fmt2 q)))
      (dotToComma (fmt2 p))
    simp only [price_list_greek, List.map_append, List.map_cons,
      List.map_nil] at h ⊢
    rw [h]
    by_cases hp : ps = []
    · simp [hp]
    · rw [if_neg (by simpa using hp), if_neg hp]

/-- **C3 counterexample.** A blank line between the header and a
well-formed data line *ends* the scan: the later matching row does not
appear (the parse yields no rows), although the same text without the
blank line yields the row.  This contradicts the claim that blank lines
are skipped without ending the scan. -/
theorem c3_blank_line_stops_scan :
    parse_block_table_from_page
      ("Χρεόγραφα Όγκος πακέτου Τιμή πακέτου Αξία πακέτου Ώρα έγκρισης" ++
       "\n\nΑΛΦΑ ΒΗΤΑ 1000 2.50 2500.00 12:30:15 1") = some [] ∧
    parse_block_table_from_page
      ("Χρεόγραφα Όγκος πακέτου Τιμή πακέτου Αξία πακέτου Ώρα έγκρισης" ++
       "\nΑΛΦΑ ΒΗΤΑ 1000 2.50 2500.00 12:30:15 1") =
      some [{ company := "ΑΛΦΑ ΒΗΤΑ", volume := 1000, price := 5 / 2,
              value := 2500, approvalTime := "12:30:15", note := "1" }] := by
  refine ⟨by decide, by decide⟩

/-- **C3 (amended).** Within the scanned span, a line that is non-blank
after stripping, free of the terminator marker and lacking the trailing
time pattern is skipped without ending the scan and produces no row (rows
of later matching lines still appear); the scan ends at the first line
that is blank after stripping or contains the terminator marker. -/
theorem c3_noise_lines_skipped (pre post : List String) (x : String)
    (hblank : pyStrip x ≠ "")
    (hmark : containsSubstr (pyStrip x) "Σημειώσεις" = false)
    (htime : timeSearch (pyStrip x).data = none) :
    scanRows (pre ++ x :: post) = scanRows (pre ++ post) ∧
    ∀ (y : String) (post2 : List String),
      (pyStrip y = "" ∨ containsSubstr (pyStrip y) "Σημειώσεις" = true) →
      scanRows (y :: post2) = [] := by
  constructor
  · induction pre with
    | nil =>
      simp only [List.nil_append, scanRows]
      rw [if_neg (by simp [hblank, hmark]), htime]
    | cons p ps ih =>
      simp only [List.cons_append, scanRows]
      by_cases h1 : pyStrip p = "" ∨ (containsSubstr (pyStrip p) "Σημειώσεις" : Prop)
      · rw [if_pos h1, if_pos h1]
      · rw [if_neg h1, if_neg h1]
        cases hts : timeSearch (pyStrip p).data with
        | none => simp only [hts]; exact ih
        | some v =>
          obtain ⟨i, t, n⟩ := v
          simp only [hts]
          cases hrv :
              (pySplit (String.mk (pyStripL ((pyStrip p).data.take i)))).reverse with
          | nil => simp only [hrv]; exact ih
          | cons a rest =>
            cases rest with
            | nil => simp only [hrv]; exact ih
            | cons b rest2 =>
              cases rest2 with
              | nil => simp only [hrv]; exact ih
              | cons c2 rest3 =>
                simp only [hrv]
                by_cases hc : rest3 = []
                · rw [if_pos hc, if_pos hc]; exact ih
                · rw [if_neg hc, if_neg hc]; exact congrArg _ ih
  · intro y post2 h
    simp only [scanRows]
    rw [if_pos h]

/-- **C3 witness.** A concrete instantiation of the amended claim: a
noise line between two matching rows is dropped without affecting
either. -/
theorem c3_noise_lines_skipped_witness :
    (pyStrip "noise line" ≠ "" ∧
     containsSubstr (pyStrip "noise line") "Σημειώσεις" = false ∧
     timeSearch (pyStrip "noise line").data = none) ∧
    scanRows (["ΑΛΦΑ 5 1.00 5.00 01:02:03 2"] ++ "noise line" ::
              ["ΓΑΜΑ 6 2.00 12.00 03:04:05 7"]) =
      scanRows (["ΑΛΦΑ 5 1.00 5.00 01:02:03 2"] ++
                ["ΓΑΜΑ 6 2.00 12.00 03:04:05 7"]) :=
  ⟨⟨by decide, by decide, by decide⟩,
   (c3_noise_lines_skipped ["ΑΛΦΑ 5 1.00 5.00 01:02:03 2"]
      ["ΓΑΜΑ 6 2.00 12.00 03:04:05 7"] "noise line"
      (by decide) (by decide) (by decide)).1⟩

/-! ### C7: row lookup/creation stability -/

theorem find?_congr_on {α : Type} (l : List α) (p q : α → Bool)
    (h : ∀ a ∈ l, p a = q a) : l.find? p = l.find? q := by
  induction l with
  | nil => rfl
  | cons a as ih =>
    have ha := h a (by simp)
    by_cases hp : p a = true
    · rw [List.find?_cons_of_pos _ hp, List.find?_cons_of_pos _ (ha ▸ hp)]
    · rw [List.find?_cons_of_neg _ hp,
        List.find?_cons_of_neg _ (by rw [← ha]; exact hp)]
      exact ih (fun b hb => h b (by simp [hb]))

/-- **C7 counterexample.** On an empty ledger (`max_row` = 1: no header
band present) the first call appends a row at index 2 and writes the date
there, and a second call with the same date on the resulting state appends
*again*, at index 3: the two calls return different row indices and two
rows are created for the same date. -/
theorem c7_empty_ledger_duplicates :
    (find_or_create_date_row (⟨[]⟩ : Ws) ⟨2024, 1, 5⟩).1 = 2 ∧
    (find_or_create_date_row
        (find_or_create_date_row (⟨[]⟩ : Ws) ⟨2024, 1, 5⟩).2 ⟨2024, 1, 5⟩).1 = 3 := by
  refine ⟨by decide, by decide⟩

/-- **C7 (amended).** For every ledger state whose `max_row` is at least 2
(the header band of rows 1–2 exists, as the fixed layout guarantees),
calling `find_or_create_date_row` twice with the same date returns the
same row index both times and the second call leaves the sheet unchanged,
so at most one row is appended in total. -/
theorem c7_find_row_stable (ws : Ws) (d : Date) (h2 : 2 ≤ maxRowWs ws) :
    find_or_create_date_row (find_or_create_date_row ws d).2 d =
      find_or_create_date_row ws d := by
  cases hf : findDateRow ws d with
  | some r => simp [find_or_create_date_row, hf]
  | none =>
    have hm : maxRowWs (setCell ws (maxRowWs ws + 1) 1 (Cell.dtm d 0 0 0)) =
        maxRowWs ws + 1 := by
      rw [maxRowWs_setCell]; omega
    have hfind : findDateRow (setCell ws (maxRowWs ws + 1) 1 (Cell.dtm d 0 0 0)) d =
        some (maxRowWs ws + 1) := by
      unfold findDateRow
      rw [hm]
      have hsplit : maxRowWs ws + 1 - 2 = (maxRowWs ws - 2) + 1 := by omega
      rw [hsplit, List.range'_1_concat]
      rw [List.find?_append]
      have heq : (List.range' 3 (maxRowWs ws - 2)).find?
          (fun r =>
            match getCell (setCell ws (maxRowWs ws + 1) 1 (Cell.dtm d 0 0 0)) r 1 with
            | none => false
            | some v => decide (cellToDate v = some d)) = none := by
        rw [find?_congr_on _ _
            (fun r =>
              match getCell ws r 1 with
              | none => false
              | some v => decide (cellToDate v = some d))]
        · have := hf
          unfold findDateRow at this
          exact this
        · intro a ha
          rw [List.mem_range'] at ha
          obtain ⟨i, hi, rfl⟩ := ha
          rw [getCell_setCell_ne]
          intro hcon
          have : 3 + 1 * i = maxRowWs ws + 1 := (Prod.ext_iff.mp hcon).1
          omega
      rw [heq]
      simp only [Option.none_or]
      have hlast : 3 + (maxRowWs ws - 2) = maxRowWs ws + 1 := by omega
      rw [hlast, List.find?_cons_of_pos, Option.some.injEq]
      · rw [getCell_setCell_same]
        simp [cellToDate]
    simp only [find_or_create_date_row, hf]
    simp only [find_or_create_date_row, hfind]

/-- **C7 witness.** A concrete ledger with a header cell in row 2: the
amended theorem applies and the pair returned by the second call equals the
first one. -/
theorem c7_find_row_stable_witness :
    2 ≤ maxRowWs ⟨[((2, 2), Cell.str "ΑΛΦΑ")]⟩ ∧
    find_or_create_date_row
        (find_or_create_date_row (⟨[((2, 2), Cell.str "ΑΛΦΑ")]⟩ : Ws)
          ⟨2024, 1, 5⟩).2 ⟨2024, 1, 5⟩ =
      find_or_create_date_row (⟨[((2, 2), Cell.str "ΑΛΦΑ")]⟩ : Ws) ⟨2024, 1, 5⟩ :=
  ⟨by decide, c7_find_row_stable _ _ (by decide)⟩

/-! ### Frame lemmas for `fillOne` / `fill_row` -/

theorem getCell_fillOne_outside (ws : Ws) (rowIdx : Nat) (e : HEntry)
    (tr : Trades) (d : Date) (r2 c2 : Nat)
    (h : r2 ≠ rowIdx ∨ c2 < e.2.1 ∨ e.2.1 + 3 < c2) :
    getCell (fillOne ws rowIdx e tr d) r2 c2 = getCell ws r2 c2 := by
  obtain ⟨comp, a, hdr⟩ := e
  simp only at h
  have key : ∀ c3, a ≤ c3 → c3 ≤ a + 3 → (r2, c2) ≠ (rowIdx, c3) := by
    intro c3 h1 h2 hcon
    rw [Prod.mk.injEq] at hcon
    obtain ⟨hra, hcc⟩ := hcon
    rcases h with h | h | h
    · exact h hra
    · omega
    · omega
  simp only [fillOne]
  cases hl : lookupTrades tr comp with
  | none =>
    exact getCell_setCell_ne _ _ _ _ _ _ (key a (by omega) (by omega))
  | some g =>
    rw [getCell_setCell_ne _ _ _ _ _ _ (key (a + 3) (by omega) (by omega)),
      getCell_setCell_ne _ _ _ _ _ _ (key (a + 2) (by omega) (by omega)),
      getCell_setCell_ne _ _ _ _ _ _ (key (a + 1) (by omega) (by omega)),
      getCell_setCell_ne _ _ _ _ _ _ (key a (by omega) (by omega))]

theorem getCell_fillOne_anchor (ws : Ws) (rowIdx : Nat) (e : HEntry)
    (tr : Trades) (d : Date) :
    getCell (fillOne ws rowIdx e tr d) rowIdx e.2.1 = some (Cell.dtm d 0 0 0) := by
  obtain ⟨comp, a, hdr⟩ := e
  simp only [fillOne]
  cases hl : lookupTrades tr comp with
  | none => exact getCell_setCell_same _ _ _ _
  | some g =>
    rw [getCell_setCell_ne _ _ _ _ _ _ (by intro hcon; rw [Prod.mk.injEq] at hcon; omega),
      getCell_setCell_ne _ _ _ _ _ _ (by intro hcon; rw [Prod.mk.injEq] at hcon; omega),
      getCell_setCell_ne _ _ _ _ _ _ (by intro hcon; rw [Prod.mk.injEq] at hcon; omega),
      getCell_setCell_same]

theorem getCell_fillOne_volume (ws : Ws) (rowIdx : Nat) (e : HEntry)
    (tr : Trades) (d : Date) (g : Group)
    (hg : lookupTrades tr e.1 = some g) :
    getCell (fillOne ws rowIdx e tr d) rowIdx (e.2.1 + 1) =
      some (volume_formula g.volumes) := by
  obtain ⟨comp, a, hdr⟩ := e
  simp only at hg
  simp only [fillOne, hg]
  rw [getCell_setCell_ne _ _ _ _ _ _ (by intro hcon; rw [Prod.mk.injEq] at hcon; omega),
    getCell_setCell_ne _ _ _ _ _ _ (by intro hcon; rw [Prod.mk.injEq] at hcon; omega),
    getCell_setCell_same]

theorem getCell_fillOne_noTrades (ws : Ws) (rowIdx : Nat) (e : HEntry)
    (tr : Trades) (d : Date) (r2 c2 : Nat)
    (hg : lookupTrades tr e.1 = none) (h : (r2, c2) ≠ (rowIdx, e.2.1)) :
    getCell (fillOne ws rowIdx e tr d) r2 c2 = getCell ws r2 c2 := by
  obtain ⟨comp, a, hdr⟩ := e
  simp only at hg h
  simp only [fillOne, hg]
  exact getCell_setCell_ne _ _ _ _ _ _ h

theorem getCell_fill_row_outside (rowIdx : Nat) (hp : List HEntry)
    (tr : Trades) (d : Date) (r2 c2 : Nat) :
    ∀ ws : Ws, (r2 ≠ rowIdx ∨ ∀ e ∈ hp, c2 < e.2.1 ∨ e.2.1 + 3 < c2) →
      getCell (fill_row ws rowIdx hp tr d) r2 c2 = getCell ws r2 c2 := by
  induction hp with
  | nil => intro ws _; rfl
  | cons e es ih =>
    intro ws h
    have h1 : r2 ≠ rowIdx ∨ c2 < e.2.1 ∨ e.2.1 + 3 < c2 := by
      rcases h with h | h
      · exact Or.inl h
      · exact Or.inr (h e (by simp))
    have h2 : r2 ≠ rowIdx ∨ ∀ e2 ∈ es, c2 < e2.2.1 ∨ e2.2.1 + 3 < c2 := by
      rcases h with h | h
      · exact Or.inl h
      · exact Or.inr (fun e2 he2 => h e2 (by simp [he2]))
    calc getCell (fill_row (fillOne ws rowIdx e tr d) rowIdx es tr d) r2 c2
        = getCell (fillOne ws rowIdx e tr d) r2 c2 := ih _ h2
      _ = getCell ws r2 c2 := getCell_fillOne_outside _ _ _ _ _ _ _ h1

/-- Helper: any two distinct anchors that are both ≡ 2 (mod 4) give
disjoint 4-column blocks; a cell at offset `k ≤ 3` from one anchor is
outside the other's block. -/
theorem block_disjoint (a a2 k : Nat) (ha : a % 4 = 2) (ha2 : a2 % 4 = 2)
    (hne : a2 ≠ a) (hk : k ≤ 3) : a + k < a2 ∨ a2 + 3 < a + k := by
  omega

/-- **C5.** For every company of the header map that has a trade group,
`fill_row` writes `volume_formula` of the group's volumes into anchor+1:
the bare integer when the group has exactly one volume, and for two or
more volumes the summation formula whose operands are exactly the volumes
in encounter order (for [100, 250, 75] the formula is `"=100+250+75"`). -/
theorem c5_volume_cell (ws : Ws) (rowIdx : Nat) (hp : List HEntry)
    (tr : Trades) (d : Date) (comp : String) (a : Nat) (hdr : String)
    (g : Group)
    (hstride : ∀ e ∈ hp, e.2.1 % 4 = 2)
    (hanch : (hp.map (fun e => e.2.1)).Nodup)
    (hmem : (comp, a, hdr) ∈ hp)
    (hg : lookupTrades tr comp = some g) :
    getCell (fill_row ws rowIdx hp tr d) rowIdx (a + 1) =
      some (volume_formula g.volumes) ∧
    (∀ v : Int, volume_formula [v] = Cell.int v) ∧
    volume_formula [100, 250, 75] = Cell.str "=100+250+75" ∧
    (∀ v1 v2 : Int, ∀ vs : List Int,
      volume_formula (v1 :: v2 :: vs) =
        Cell.str ("=" ++ joinWith "+" ((v1 :: v2 :: vs).map intToStr))) := by
  refine ⟨?_, fun v => rfl, by decide, fun v1 v2 vs => rfl⟩
  induction hp generalizing ws with
  | nil => simp at hmem
  | cons e es ih =>
    have ha : a % 4 = 2 := by
      have := hstride (comp, a, hdr) hmem
      simpa using this
    rcases List.mem_cons.mp hmem with heq | hmem2
    · subst heq
      show getCell (fill_row (fillOne ws rowIdx (comp, a, hdr) tr d)
          rowIdx es tr d) rowIdx (a + 1) = some (volume_formula g.volumes)
      rw [getCell_fill_row_outside rowIdx es tr d rowIdx (a + 1) _ ?_]
      · exact getCell_fillOne_volume _ _ (comp, a, hdr) _ _ _ hg
      · refine Or.inr (fun e2 he2 => ?_)
        refine block_disjoint a e2.2.1 1 ha (hstride e2 (by simp [he2])) ?_ (by omega)
        intro hcon
        have : e2.2.1 ∈ es.map (fun e => e.2.1) := List.mem_map_of_mem _ he2
        rw [hcon] at this
        exact (List.nodup_cons.mp hanch).1 this
    · show getCell (fill_row (fillOne ws rowIdx e tr d) rowIdx es tr d)
          rowIdx (a + 1) = some (volume_formula g.volumes)
      exact ih _ (fun e2 he2 => hstride e2 (List.mem_cons_of_mem _ he2))
        (List.nodup_cons.mp hanch).2 hmem2

/-- **C5 witness.** A concrete two-company header map with a three-trade
group and a single-trade group. -/
theorem c5_volume_cell_witness :
    (∀ e ∈ [("ΑΛΦΑ", 2, "ΑΛΦΑ"), ("ΒΗΤΑ", 6, "ΒΗΤΑ")], e.2.1 % 4 = 2) ∧
    (([("ΑΛΦΑ", 2, "ΑΛΦΑ"), ("ΒΗΤΑ", 6, "ΒΗΤΑ")].map
        (fun e : HEntry => e.2.1)).Nodup) ∧
    lookupTrades [("ΑΛΦΑ", Group.mk [100, 250, 75] [1, 2, 3])] "ΑΛΦΑ" =
      some (Group.mk [100, 250, 75] [1, 2, 3]) ∧
    getCell (fill_row ⟨[]⟩ 3 [("ΑΛΦΑ", 2, "ΑΛΦΑ"), ("ΒΗΤΑ", 6, "ΒΗΤΑ")]
        [("ΑΛΦΑ", Group.mk [100, 250, 75] [1, 2, 3])] ⟨2024, 1, 5⟩) 3 3 =
      some (volume_formula [100, 250, 75]) :=
  ⟨by decide, by decide, by decide,
   (c5_volume_cell ⟨[]⟩ 3 [("ΑΛΦΑ", 2, "ΑΛΦΑ"), ("ΒΗΤΑ", 6, "ΒΗΤΑ")]
      [("ΑΛΦΑ", Group.mk [100, 250, 75] [1, 2, 3])] ⟨2024, 1, 5⟩
      "ΑΛΦΑ" 2 "ΑΛΦΑ" (Group.mk [100, 250, 75] [1, 2, 3])
      (by decide) (by decide) (by decide) (by decide)).1⟩

/-- **C8.** `fill_row` (i) writes the date into the anchor column of
*every* company in the header map, matched or not; (ii) for a company with
no trade group it leaves anchor+1..3 exactly as they were; (iii) it writes
to no cell outside the header companies' 4-column blocks on the target
row — in particular a company present in the parsed trades but absent from
the header map causes no ledger write at all. -/
theorem c8_fill_row_frame (ws : Ws) (rowIdx : Nat) (hp : List HEntry)
    (tr : Trades) (d : Date)
    (hstride : ∀ e ∈ hp, e.2.1 % 4 = 2)
    (hanch : (hp.map (fun e => e.2.1)).Nodup) :
    (∀ comp a hdr, (comp, a, hdr) ∈ hp →
       getCell (fill_row ws rowIdx hp tr d) rowIdx a = some (Cell.dtm d 0 0 0)) ∧
    (∀ comp a hdr, (comp, a, hdr) ∈ hp → lookupTrades tr comp = none →
       ∀ k, 1 ≤ k → k ≤ 3 →
         getCell (fill_row ws rowIdx hp tr d) rowIdx (a + k) =
           getCell ws rowIdx (a + k)) ∧
    (∀ r2 c2, (r2 ≠ rowIdx ∨ ∀ e ∈ hp, c2 < e.2.1 ∨ e.2.1 + 3 < c2) →
       getCell (fill_row ws rowIdx hp tr d) r2 c2 = getCell ws r2 c2) := by
  refine ⟨?_, ?_, fun r2 c2 h => getCell_fill_row_outside rowIdx hp tr d r2 c2 ws h⟩
  · induction hp generalizing ws with
    | nil => intro comp a hdr hmem; simp at hmem
    | cons e es ih =>
      intro comp a hdr hmem
      have ha : a % 4 = 2 := by simpa using hstride (comp, a, hdr) hmem
      rcases List.mem_cons.mp hmem with heq | hmem2
      · subst heq
        show getCell (fill_row (fillOne ws rowIdx (comp, a, hdr) tr d)
            rowIdx es tr d) rowIdx a = some (Cell.dtm d 0 0 0)
        rw [getCell_fill_row_outside rowIdx es tr d rowIdx a _ ?_]
        · exact getCell_fillOne_anchor _ _ (comp, a, hdr) _ _
        · refine Or.inr (fun e2 he2 => ?_)
          have hne2 : e2.2.1 ≠ a := by
            intro hcon
            have hmm : e2.2.1 ∈ es.map (fun e => e.2.1) := List.mem_map_of_mem _ he2
            rw [hcon] at hmm
            exact (List.nodup_cons.mp hanch).1 hmm
          have hd := block_disjoint a e2.2.1 0 ha
            (hstride e2 (List.mem_cons_of_mem _ he2)) hne2 (by omega)
          omega
      · exact ih _ (fun e2 he2 => hstride e2 (List.mem_cons_of_mem _ he2))
          (List.nodup_cons.mp hanch).2 comp a hdr hmem2
  · induction hp generalizing ws with
    | nil => intro comp a hdr hmem; simp at hmem
    | cons e es ih =>
      intro comp a hdr hmem hnone k hk1 hk3
      have ha : a % 4 = 2 := by simpa using hstride (comp, a, hdr) hmem
      rcases List.mem_cons.mp hmem with heq | hmem2
      · subst heq
        show getCell (fill_row (fillOne ws rowIdx (comp, a, hdr) tr d)
            rowIdx es tr d) rowIdx (a + k) = getCell ws rowIdx (a + k)
        rw [getCell_fill_row_outside rowIdx es tr d rowIdx (a + k) _ ?_]
        · exact getCell_fillOne_noTrades _ _ (comp, a, hdr) _ _ _ _ hnone
            (show (rowIdx, a + k) ≠ (rowIdx, a) by
              intro hcon; rw [Prod.mk.injEq] at hcon; omega)
        · refine Or.inr (fun e2 he2 => ?_)
          refine block_disjoint a e2.2.1 k ha
            (hstride e2 (List.mem_cons_of_mem _ he2)) ?_ hk3
          intro hcon
          have : e2.2.1 ∈ es.map (fun e => e.2.1) := List.mem_map_of_mem _ he2
          rw [hcon] at this
          exact (List.nodup_cons.mp hanch).1 this
      · have hea : e.2.1 ≠ a := by
          simp only [List.map_cons, List.nodup_cons] at hanch
          intro hcon
          have hmm : a ∈ es.map (fun x => x.2.1) :=
            List.mem_map_of_mem (fun x => x.2.1) hmem2
          rw [← hcon] at hmm
          exact hanch.1 hmm
        calc getCell (fill_row (fillOne ws rowIdx e tr d) rowIdx es tr d)
              rowIdx (a + k)
            = getCell (fillOne ws rowIdx e tr d) rowIdx (a + k) :=
              ih _ (fun e2 he2 => hstride e2 (List.mem_cons_of_mem _ he2))
                (List.nodup_cons.mp hanch).2 comp a hdr hmem2 hnone k hk1 hk3
          _ = getCell ws rowIdx (a + k) := by
              refine getCell_fillOne_outside _ _ _ _ _ _ _ (Or.inr ?_)
              exact block_disjoint a e.2.1 k ha
                (hstride e (List.mem_cons_self _ _)) hea hk3

/-- **C8 witness.** A header map with a matched and an unmatched company
over a ledger holding a pre-existing value in the unmatched company's
volume cell: the date lands in both anchors, the unmatched company's
anchor+1..3 keep their old values, and a cell outside all blocks is
untouched. -/
theorem c8_fill_row_frame_witness :
    (∀ e ∈ [("ΑΛΦΑ", 2, "ΑΛΦΑ"), ("ΒΗΤΑ", 6, "ΒΗΤΑ")], e.2.1 % 4 = 2) ∧
    (([("ΑΛΦΑ", 2, "ΑΛΦΑ"), ("ΒΗΤΑ", 6, "ΒΗΤΑ")].map
        (fun e : HEntry => e.2.1)).Nodup) ∧
    (let ws0 : Ws := ⟨[((3, 7), Cell.int 99), ((3, 20), Cell.str "keep")]⟩
     let hp : List HEntry := [("ΑΛΦΑ", 2, "ΑΛΦΑ"), ("ΒΗΤΑ", 6, "ΒΗΤΑ")]
     let tr : Trades := [("ΑΛΦΑ", Group.mk [100] [1]),
                         ("ΓΑΜΑ", Group.mk [5] [2])]
     let out := fill_row ws0 3 hp tr ⟨2024, 1, 5⟩
     getCell out 3 6 = some (Cell.dtm ⟨2024, 1, 5⟩ 0 0 0) ∧
     getCell out 3 7 = getCell ws0 3 7 ∧
     getCell out 3 20 = getCell ws0 3 20) := by
  refine ⟨by decide, by decide, ?_, ?_, ?_⟩
  · exact (c8_fill_row_frame _ 3 _ _ ⟨2024, 1, 5⟩ (by decide) (by decide)).1
      "ΒΗΤΑ" 6 "ΒΗΤΑ" (by decide)
  · exact (c8_fill_row_frame _ 3 _ _ ⟨2024, 1, 5⟩ (by decide) (by decide)).2.1
      "ΒΗΤΑ" 6 "ΒΗΤΑ" (by decide) (by decide) 1 (by decide) (by decide)
  · exact (c8_fill_row_frame _ 3 _ _ ⟨2024, 1, 5⟩ (by decide) (by decide)).2.2
      3 20 (Or.inr (by decide))

/-- **C9.** When no report date is resolvable from any page but rows were
parsed, the run surfaces the error before any ledger access: the result is
`RunResult.dateError` for every workbook, so no ledger row is located or
created, no cell is written, and no output file is saved. -/
theorem c9_missing_date_error (pages : List String) (wb : Workbook)
    (rows : List Row)
    (hx : extract_block_trades pages = .ok (none, rows))
    (hne : rows ≠ []) :
    run_main pages wb = RunResult.dateError := by
  simp only [run_main, hx, if_neg hne]

/-- **C9 witness.** A one-page document with a parseable block table and
no date line: the run errors out with `dateError` on a workbook it never
touches. -/
theorem c9_missing_date_error_witness :
    extract_block_trades
        ["Χρεόγραφα Όγκος πακέτου Τιμή πακέτου Αξία πακέτου Ώρα έγκρισης" ++
         "\nΑΛΦΑ 1000 2.50 2500.00 12:30:15 1"] =
      .ok (none, [{ company := "ΑΛΦΑ", volume := 1000, price := 5 / 2,
                    value := 2500, approvalTime := "12:30:15", note := "1" }]) ∧
    run_main
        ["Χρεόγραφα Όγκος πακέτου Τιμή πακέτου Αξία πακέτου Ώρα έγκρισης" ++
         "\nΑΛΦΑ 1000 2.50 2500.00 12:30:15 1"] [("Master", ⟨[]⟩)] =
      RunResult.dateError :=
  ⟨rfl,
   c9_missing_date_error
     ["Χρεόγραφα Όγκος πακέτου Τιμή πακέτου Αξία πακέτου Ώρα έγκρισης" ++
      "\nΑΛΦΑ 1000 2.50 2500.00 12:30:15 1"] [("Master", ⟨[]⟩)]
     [{ company := "ΑΛΦΑ", volume := 1000, price := 5 / 2, value := 2500,
        approvalTime := "12:30:15", note := "1" }] rfl (by decide)⟩

/-! ### C10: header shadowing -/

theorem pairwise_lt_range' (s n step : Nat) (hstep : 0 < step) :
    (List.range' s n step).Pairwise (· < ·) := by
  induction n generalizing s with
  | zero => simp
  | succ n ih =>
    rw [List.range'_succ]
    refine List.Pairwise.cons ?_ (ih (s + step))
    intro m hm
    rw [List.mem_range'] at hm
    obtain ⟨i, hi, rfl⟩ := hm
    omega

theorem headerInv_step (ws : Ws) (processed : List Nat) (m : List HEntry)
    (c0 : Nat) (hinv : headerInv ws processed m)
    (hgt : ∀ c2 ∈ processed, c2 < c0) :
    headerInv ws (processed ++ [c0])
      (match headerEntryAt ws c0 with
       | none => m
       | some (k, t) => dictUpsert m k (c0, t)) := by
  obtain ⟨hnd, hmem⟩ := hinv
  cases hh : headerEntryAt ws c0 with
  | none =>
    refine ⟨hnd, fun k c t hkt => ?_⟩
    obtain ⟨⟨hc, he⟩, hmax⟩ := hmem k c t hkt
    refine ⟨⟨by simp [hc], he⟩, fun c2 hc2 t2 he2 => ?_⟩
    rcases List.mem_append.mp hc2 with h | h
    · exact hmax c2 h t2 he2
    · simp only [List.mem_singleton] at h
      subst h
      rw [hh] at he2
      exact absurd he2 (by simp)
  | some v =>
    obtain ⟨k0, t0⟩ := v
    show headerInv ws (processed ++ [c0]) (dictUpsert m k0 (c0, t0))
    unfold dictUpsert
    by_cases hex : m.any (fun e => e.1 = k0) = true
    · rw [if_pos hex]
      constructor
      · have hkeys : (m.map (fun e => if e.1 = k0 then (k0, c0, t0) else e)).map
            (fun e => e.1) = m.map (fun e => e.1) := by
          rw [List.map_map]
          refine List.map_congr_left (fun e _ => ?_)
          by_cases hk : e.1 = k0
          · simp [hk]
          · simp [hk]
        rw [hkeys]
        exact hnd
      · intro k c t hkt
        rw [List.mem_map] at hkt
        obtain ⟨e0, he0, heq⟩ := hkt
        by_cases hk : e0.1 = k0
        · rw [if_pos hk] at heq
          have heq2 := heq.symm
          rw [Prod.mk.injEq] at heq2
          obtain ⟨hk1, heq3⟩ := heq2
          rw [Prod.mk.injEq] at heq3
          obtain ⟨hc1, ht1⟩ := heq3
          subst hk1; subst hc1; subst ht1
          refine ⟨⟨by simp, hh⟩, fun c2 hc2 t2 he2 => ?_⟩
          rcases List.mem_append.mp hc2 with h | h
          · exact le_of_lt (hgt c2 h)
          · simp only [List.mem_singleton] at h
            omega
        · rw [if_neg hk] at heq
          subst heq
          obtain ⟨⟨hc, he⟩, hmax⟩ := hmem k c t he0
          refine ⟨⟨by simp [hc], he⟩, fun c2 hc2 t2 he2 => ?_⟩
          rcases List.mem_append.mp hc2 with h | h
          · exact hmax c2 h t2 he2
          · simp only [List.mem_singleton] at h
            subst h
            rw [hh] at he2
            rw [Option.some.injEq, Prod.mk.injEq] at he2
            exact absurd he2.1.symm hk
    · rw [if_neg hex]
      have hall : ∀ e ∈ m, e.1 ≠ k0 := by
        intro e he hcon
        exact hex (List.any_eq_true.mpr ⟨e, he, by simp [hcon]⟩)
      constructor
      · rw [List.map_append]
        rw [List.nodup_append]
        refine ⟨hnd, by simp, ?_⟩
        intro x hx hx2
        simp only [List.map_cons, List.map_nil, List.mem_singleton] at hx2
        rw [List.mem_map] at hx
        obtain ⟨e, he, rfl⟩ := hx
        exact hall e he hx2
      · intro k c t hkt
        rcases List.mem_append.mp hkt with hold | hnew
        · obtain ⟨⟨hc, he⟩, hmax⟩ := hmem k c t hold
          refine ⟨⟨by simp [hc], he⟩, fun c2 hc2 t2 he2 => ?_⟩
          rcases List.mem_append.mp hc2 with h | h
          · exact hmax c2 h t2 he2
          · simp only [List.mem_singleton] at h
            subst h
            rw [hh, Option.some.injEq, Prod.mk.injEq] at he2
            exact absurd (fun e he0 => hall e he0) (by
              intro hcontra
              exact (hcontra ((k, c, t)) hold) (by
                have : ((k, c, t) : HEntry).1 = k := rfl
                rw [this, he2.1]))
        · simp only [List.mem_singleton] at hnew
          have heq2 := hnew
          rw [Prod.mk.injEq] at heq2
          obtain ⟨hk1, heq3⟩ := heq2
          rw [Prod.mk.injEq] at heq3
          obtain ⟨hc1, ht1⟩ := heq3
          subst hk1; subst hc1; subst ht1
          refine ⟨⟨by simp, hh⟩, fun c2 hc2 t2 he2 => ?_⟩
          rcases List.mem_append.mp hc2 with h | h
          · exact le_of_lt (hgt c2 h)
          · simp only [List.mem_singleton] at h
            omega

theorem buildHeaderMap_inv (ws : Ws) :
    ∀ (cs processed : List Nat) (m : List HEntry),
      headerInv ws processed m →
      (∀ c2 ∈ processed, ∀ c ∈ cs, c2 < c) →
      cs.Pairwise (· < ·) →
      headerInv ws (processed ++ cs) (buildHeaderMap ws cs m) := by
  intro cs
  induction cs with
  | nil => intro processed m hinv _ _; simpa using hinv
  | cons c0 cs ih =>
    intro processed m hinv horder hsorted
    have hstep := headerInv_step ws processed m c0 hinv
      (fun c2 hc2 => horder c2 hc2 c0 (by simp))
    have hres := ih (processed ++ [c0]) _ hstep
      (fun c2 hc2 c hc => by
        rcases List.mem_append.mp hc2 with h | h
        · exact horder c2 h c (by simp [hc])
        · simp only [List.mem_singleton] at h
          subst h
          exact (List.pairwise_cons.mp hsorted).1 c hc)
      (List.pairwise_cons.mp hsorted).2
    have hassoc : (processed ++ [c0]) ++ cs = processed ++ c0 :: cs := by
      simp
    rw [hassoc] at hres
    exact hres

/-- **C10.** `read_company_header_positions` returns a map with unique
normalized keys; every entry `(key, column, text)` comes from a qualifying
stride-4 header cell at that column, and its column is the *rightmost*
qualifying column whose text normalizes to that key — colliding earlier
columns are silently shadowed (and, via the `fill_row` lemmas, trades for
the collided name are only ever written into that rightmost block). -/
theorem c10_header_shadowing (ws : Ws) :
    ((read_company_header_positions ws).map (fun e => e.1)).Nodup ∧
    ∀ k c t, (k, c, t) ∈ read_company_header_positions ws →
      (c ∈ strideCols (maxColWs ws) ∧ headerEntryAt ws c = some (k, t)) ∧
      ∀ c2 ∈ strideCols (maxColWs ws), ∀ t2,
        headerEntryAt ws c2 = some (k, t2) → c2 ≤ c := by
  have h := buildHeaderMap_inv ws (strideCols (maxColWs ws)) [] []
    ⟨by simp, fun k c t hkt => absurd hkt (by simp)⟩
    (fun c2 hc2 => absurd hc2 (by simp))
    (pairwise_lt_range' 2 ((maxColWs ws + 2) / 4) 4 (by omega))
  simpa [read_company_header_positions] using h

/-- **C10 witness.** Columns 2 and 10 of `wsCollide` both normalize to
"ΑΛΦΑ"; the returned map keeps the rightmost column 10, has unique keys,
and no qualifying column with that key exceeds 10. -/
theorem c10_header_shadowing_witness :
    ("ΑΛΦΑ", 10, "ΑΛΦΑ") ∈ read_company_header_positions wsCollide ∧
    headerEntryAt wsCollide 2 = some ("ΑΛΦΑ", "αλφα") ∧
    ((read_company_header_positions wsCollide).map (fun e => e.1)).Nodup ∧
    ((10 ∈ strideCols (maxColWs wsCollide) ∧
      headerEntryAt wsCollide 10 = some ("ΑΛΦΑ", "ΑΛΦΑ")) ∧
     ∀ c2 ∈ strideCols (maxColWs wsCollide), ∀ t2,
       headerEntryAt wsCollide c2 = some ("ΑΛΦΑ", t2) → c2 ≤ 10) :=
  ⟨by decide, by decide, (c10_header_shadowing wsCollide).1,
   (c10_header_shadowing wsCollide).2 "ΑΛΦΑ" 10 "ΑΛΦΑ" (by decide)⟩

/-! ### Character-table facts for the idempotence development -/

theorem lookup_mem {tbl : List (Char × Char)} {c d : Char}
    (h : tbl.lookup c = some d) : (c, d) ∈ tbl := by
  rw [List.lookup_eq_some_iff] at h
  obtain ⟨l1, l2, rfl, _⟩ := h
  simp

theorem mapChar_self_or_mem (tbl : List (Char × Char)) (c : Char) :
    (mapChar tbl c = c ∧ ∀ p ∈ tbl, c ≠ p.1) ∨ (c, mapChar tbl c) ∈ tbl := by
  unfold mapChar
  cases hl : tbl.lookup c with
  | none =>
    rw [List.lookup_eq_none_iff] at hl
    exact Or.inl ⟨rfl, fun p hp hc => by simpa [hc] using hl p hp⟩
  | some d => exact Or.inr (lookup_mem hl)

theorem upperChar_idem (c : Char) : upperChar (upperChar c) = upperChar c := by
  rcases mapChar_self_or_mem upperPairs c with ⟨h, _⟩ | hm
  · unfold upperChar
    rw [h, h]
  · have F : ∀ p ∈ upperPairs, upperChar p.2 = p.2 := by decide
    exact F _ hm

theorem deaccentChar_notin (c : Char) :
    deaccentChar c ∉ deaccentPairs.map Prod.fst := by
  rcases mapChar_self_or_mem deaccentPairs c with ⟨h, hnk⟩ | hm
  · unfold deaccentChar
    rw [h]
    intro hc
    rw [List.mem_map] at hc
    obtain ⟨p, hp, hpc⟩ := hc
    exact hnk p hp hpc.symm
  · have F : ∀ p ∈ deaccentPairs, ∀ q ∈ deaccentPairs, p.2 ≠ q.1 := by decide
    intro hc
    rw [List.mem_map] at hc
    obtain ⟨q, hq, hqc⟩ := hc
    exact F _ hm q hq hqc.symm

theorem deaccentChar_fix_of_notin (c : Char)
    (h : c ∉ deaccentPairs.map Prod.fst) : deaccentChar c = c := by
  rcases mapChar_self_or_mem deaccentPairs c with ⟨h2, _⟩ | hm
  · exact h2
  · exact absurd (List.mem_map_of_mem Prod.fst hm) h

theorem upperChar_notin_da (c : Char) (h : c ∉ deaccentPairs.map Prod.fst) :
    upperChar c ∉ deaccentPairs.map Prod.fst := by
  rcases mapChar_self_or_mem upperPairs c with ⟨h2, _⟩ | hm
  · unfold upperChar
    rw [h2]
    exact h
  · have F : ∀ p ∈ upperPairs,
        p.1 ∈ deaccentPairs.map Prod.fst ∨ p.2 ∉ deaccentPairs.map Prod.fst := by
      decide
    rcases F _ hm with h3 | h3
    · exact absurd h3 h
    · exact h3

/-- The two components of being fixed by a second normalization pass, at
the character level. -/
theorem charFix_of_deaccent_img (d : Char)
    (h : d ∉ deaccentPairs.map Prod.fst) :
    deaccentChar (upperChar d) = upperChar d ∧
    upperChar (upperChar d) = upperChar d :=
  ⟨deaccentChar_fix_of_notin _ (upperChar_notin_da d h), upperChar_idem d⟩

theorem upperChar_paren (c : Char) :
    (upperChar c = '(' ↔ c = '(') ∧ (upperChar c = ')' ↔ c = ')') ∧
    isWs (upperChar c) = isWs c := by
  rcases mapChar_self_or_mem upperPairs c with ⟨h, _⟩ | hm
  · unfold upperChar
    rw [h]
    exact ⟨Iff.rfl, Iff.rfl, rfl⟩
  · have F : ∀ p ∈ upperPairs, p.2 ≠ '(' ∧ p.1 ≠ '(' ∧ p.2 ≠ ')' ∧
        p.1 ≠ ')' ∧ isWs p.1 = false ∧ isWs p.2 = false := by decide
    obtain ⟨f1, f2, f3, f4, f5, f6⟩ := F _ hm
    exact ⟨⟨fun h2 => absurd h2 f1, fun h2 => absurd h2 f2⟩,
      ⟨fun h2 => absurd h2 f3, fun h2 => absurd h2 f4⟩, f6.trans f5.symm⟩

theorem upperChar_koTok (a b : Char) :
    koTok (upperChar a) (upperChar b) = koTok a b := by
  have h1 : ∀ c, (upperChar c == 'Κ' || upperChar c == 'κ' || upperChar c == 'K' ||
      upperChar c == 'k') = (c == 'Κ' || c == 'κ' || c == 'K' || c == 'k') := by
    intro c
    rcases mapChar_self_or_mem upperPairs c with ⟨h, _⟩ | hm
    · unfold upperChar
      rw [h]
    · have F : ∀ p ∈ upperPairs,
          (p.2 == 'Κ' || p.2 == 'κ' || p.2 == 'K' || p.2 == 'k') =
          (p.1 == 'Κ' || p.1 == 'κ' || p.1 == 'K' || p.1 == 'k') := by decide
      exact F _ hm
  have h2 : ∀ c, (upperChar c == 'Ο' || upperChar c == 'ο' || upperChar c == 'O' ||
      upperChar c == 'o') = (c == 'Ο' || c == 'ο' || c == 'O' || c == 'o') := by
    intro c
    rcases mapChar_self_or_mem upperPairs c with ⟨h, _⟩ | hm
    · unfold upperChar
      rw [h]
    · have F : ∀ p ∈ upperPairs,
          (p.2 == 'Ο' || p.2 == 'ο' || p.2 == 'O' || p.2 == 'o') =
          (p.1 == 'Ο' || p.1 == 'ο' || p.1 == 'O' || p.1 == 'o') := by decide
      exact F _ hm
  unfold koTok
  rw [h1, h2]

theorem upperChar_kaTok (a b : Char) :
    kaTok (upperChar a) (upperChar b) = kaTok a b := by
  have h1 : ∀ c, (upperChar c == 'Κ' || upperChar c == 'κ' || upperChar c == 'K' ||
      upperChar c == 'k') = (c == 'Κ' || c == 'κ' || c == 'K' || c == 'k') := by
    intro c
    rcases mapChar_self_or_mem upperPairs c with ⟨h, _⟩ | hm
    · unfold upperChar
      rw [h]
    · have F : ∀ p ∈ upperPairs,
          (p.2 == 'Κ' || p.2 == 'κ' || p.2 == 'K' || p.2 == 'k') =
          (p.1 == 'Κ' || p.1 == 'κ' || p.1 == 'K' || p.1 == 'k') := by decide
      exact F _ hm
  have h2 : ∀ c, (upperChar c == 'Α' || upperChar c == 'α' || upperChar c == 'A' ||
      upperChar c == 'a') = (c == 'Α' || c == 'α' || c == 'A' || c == 'a') := by
    intro c
    rcases mapChar_self_or_mem upperPairs c with ⟨h, _⟩ | hm
    · unfold upperChar
      rw [h]
    · have F : ∀ p ∈ upperPairs,
          (p.2 == 'Α' || p.2 == 'α' || p.2 == 'A' || p.2 == 'a') =
          (p.1 == 'Α' || p.1 == 'α' || p.1 == 'A' || p.1 == 'a') := by decide
      exact F _ hm
  unfold kaTok
  rw [h1, h2]

theorem koTok_facts {a b : Char} (h : koTok a b = true) :
    (isWs a = false ∧ a ≠ '(' ∧ a ≠ ')') ∧
    (isWs b = false ∧ b ≠ '(' ∧ b ≠ ')') := by
  simp only [koTok, Bool.and_eq_true, Bool.or_eq_true, beq_iff_eq] at h
  obtain ⟨ha, hb⟩ := h
  constructor
  · rcases ha with ((rfl | rfl) | rfl) | rfl <;> exact ⟨rfl, by decide, by decide⟩
  · rcases hb with ((rfl | rfl) | rfl) | rfl <;> exact ⟨rfl, by decide, by decide⟩

theorem kaTok_facts {a b : Char} (h : kaTok a b = true) :
    (isWs a = false ∧ a ≠ '(' ∧ a ≠ ')') ∧
    (isWs b = false ∧ b ≠ '(' ∧ b ≠ ')') := by
  simp only [kaTok, Bool.and_eq_true, Bool.or_eq_true, beq_iff_eq] at h
  obtain ⟨ha, hb⟩ := h
  constructor
  · rcases ha with ((rfl | rfl) | rfl) | rfl <;> exact ⟨rfl, by decide, by decide⟩
  · rcases hb with ((rfl | rfl) | rfl) | rfl <;> exact ⟨rfl, by decide, by decide⟩

/-! ### Rewrite equations for `subKO` / `subKA` -/

theorem subKO_match (a b : Char) (rest : List Char) (h : koTok a b = true) :
    subKO ('(' :: a :: b :: ')' :: rest) =
      '(' :: 'K' :: 'O' :: ')' :: subKO rest := by
  simp [subKO, h]

theorem subKO_nomatch (a b : Char) (rest : List Char) (h : koTok a b = false) :
    subKO ('(' :: a :: b :: ')' :: rest) = '(' :: subKO (a :: b :: ')' :: rest) := by
  simp [subKO, h]

theorem subKO_cons_ne (c : Char) (cs : List Char) (h : c ≠ '(') :
    subKO (c :: cs) = c :: subKO cs := by
  cases cs with
  | nil => simp [subKO]
  | cons a cs2 =>
    cases cs2 with
    | nil => simp [subKO]
    | cons b cs3 =>
      cases cs3 with
      | nil => simp [subKO]
      | cons d rest =>
        by_cases hd : d = ')'
        · subst hd
          simp [subKO, h]
        · simp [subKO, hd]

theorem subKO_ne4 (c a b d : Char) (rest : List Char) (h : d ≠ ')') :
    subKO (c :: a :: b :: d :: rest) = c :: subKO (a :: b :: d :: rest) := by
  simp [subKO, h]

theorem subKO_one (c : Char) : subKO [c] = [c] := by simp [subKO]

theorem subKO_two (c a : Char) : subKO [c, a] = [c, a] := by simp [subKO]

theorem subKO_three (c a b : Char) : subKO [c, a, b] = [c, a, b] := by
  simp [subKO]

theorem subKO_head (l : List Char) : (subKO l).head? = l.head? := by
  rcases l with _ | ⟨c, _ | ⟨a, _ | ⟨b, _ | ⟨d, rest⟩⟩⟩⟩
  · rfl
  · rw [subKO_one]
  · rw [subKO_two]
  · rw [subKO_three]
  · by_cases hc : c = '('
    · subst hc
      by_cases hd : d = ')'
      · subst hd
        by_cases hko : koTok a b = true
        · rw [subKO_match _ _ _ hko]
          rfl
        · rw [subKO_nomatch _ _ _ (by simpa using hko)]
          rfl
      · rw [subKO_ne4 _ _ _ _ _ hd]
        rfl
    · rw [subKO_cons_ne _ _ hc]
      rfl

theorem subKA_match (a b : Char) (rest : List Char) (h : kaTok a b = true) :
    subKA ('(' :: a :: b :: ')' :: rest) =
      '(' :: 'K' :: 'A' :: ')' :: subKA rest := by
  simp [subKA, h]

theorem subKA_nomatch (a b : Char) (rest : List Char) (h : kaTok a b = false) :
    subKA ('(' :: a :: b :: ')' :: rest) = '(' :: subKA (a :: b :: ')' :: rest) := by
  simp [subKA, h]

theorem subKA_cons_ne (c : Char) (cs : List Char) (h : c ≠ '(') :
    subKA (c :: cs) = c :: subKA cs := by
  cases cs with
  | nil => simp [subKA]
  | cons a cs2 =>
    cases cs2 with
    | nil => simp [subKA]
    | cons b cs3 =>
      cases cs3 with
      | nil => simp [subKA]
      | cons d rest =>
        by_cases hd : d = ')'
        · subst hd
          simp [subKA, h]
        · simp [subKA, hd]

theorem subKA_ne4 (c a b d : Char) (rest : List Char) (h : d ≠ ')') :
    subKA (c :: a :: b :: d :: rest) = c :: subKA (a :: b :: d :: rest) := by
  simp [subKA, h]

theorem subKA_one (c : Char) : subKA [c] = [c] := by simp [subKA]

theorem subKA_two (c a : Char) : subKA [c, a] = [c, a] := by simp [subKA]

theorem subKA_three (c a b : Char) : subKA [c, a, b] = [c, a, b] := by
  simp [subKA]

theorem subKA_head (l : List Char) : (subKA l).head? = l.head? := by
  rcases l with _ | ⟨c, _ | ⟨a, _ | ⟨b, _ | ⟨d, rest⟩⟩⟩⟩
  · rfl
  · rw [subKA_one]
  · rw [subKA_two]
  · rw [subKA_three]
  · by_cases hc : c = '('
    · subst hc
      by_cases hd : d = ')'
      · subst hd
        by_cases hka : kaTok a b = true
        · rw [subKA_match _ _ _ hka]
          rfl
        · rw [subKA_nomatch _ _ _ (by simpa using hka)]
          rfl
      · rw [subKA_ne4 _ _ _ _ _ hd]
        rfl
    · rw [subKA_cons_ne _ _ hc]
      rfl

/-! ### Pointwise shape preservation -/

theorem subKO_pointwise_aux :
    ∀ (n : Nat) (l : List Char), l.length ≤ n →
      ∀ i, charShapeOK (l.get? i) ((subKO l).get? i) := by
  intro n
  induction n with
  | zero =>
    intro l hl i
    have : l = [] := List.eq_nil_of_length_eq_zero (Nat.le_zero.mp hl)
    subst this
    exact Or.inl rfl
  | succ n ihn =>
    intro l hl i
    rcases l with _ | ⟨c, _ | ⟨a, _ | ⟨b, _ | ⟨d, rest⟩⟩⟩⟩
    · exact Or.inl rfl
    · rw [subKO_one]; exact Or.inl rfl
    · rw [subKO_two]; exact Or.inl rfl
    · rw [subKO_three]; exact Or.inl rfl
    · simp only [List.length_cons] at hl
      by_cases hc : c = '('
      · subst hc
        by_cases hd : d = ')'
        · subst hd
          by_cases hko : koTok a b = true
          · rw [subKO_match _ _ _ hko]
            rcases i with _ | (_ | (_ | (_ | j)))
            · exact Or.inl rfl
            · obtain ⟨⟨hwa, hpa, hqa⟩, _⟩ := koTok_facts hko
              exact Or.inr ⟨a, 'K', rfl, rfl, hwa, hpa, hqa, by decide,
                by decide, by decide⟩
            · obtain ⟨_, hwb, hpb, hqb⟩ := koTok_facts hko
              exact Or.inr ⟨b, 'O', rfl, rfl, hwb, hpb, hqb, by decide,
                by decide, by decide⟩
            · exact Or.inl rfl
            · exact ihn rest (by omega) j
          · rw [subKO_nomatch _ _ _ (by simpa using hko)]
            rcases i with _ | j
            · exact Or.inl rfl
            · exact ihn (a :: b :: ')' :: rest) (by simp; omega) j
        · rw [subKO_ne4 _ _ _ _ _ hd]
          rcases i with _ | j
          · exact Or.inl rfl
          · exact ihn (a :: b :: d :: rest) (by simp; omega) j
      · rw [subKO_cons_ne _ _ hc]
        rcases i with _ | j
        · exact Or.inl rfl
        · exact ihn (a :: b :: d :: rest) (by simp; omega) j

theorem subKO_pointwise (l : List Char) (i : Nat) :
    charShapeOK (l.get? i) ((subKO l).get? i) :=
  subKO_pointwise_aux l.length l (Nat.le_refl _) i

theorem subKA_pointwise_aux :
    ∀ (n : Nat) (l : List Char), l.length ≤ n →
      ∀ i, charShapeOK (l.get? i) ((subKA l).get? i) := by
  intro n
  induction n with
  | zero =>
    intro l hl i
    have : l = [] := List.eq_nil_of_length_eq_zero (Nat.le_zero.mp hl)
    subst this
    exact Or.inl rfl
  | succ n ihn =>
    intro l hl i
    rcases l with _ | ⟨c, _ | ⟨a, _ | ⟨b, _ | ⟨d, rest⟩⟩⟩⟩
    · exact Or.inl rfl
    · rw [subKA_one]; exact Or.inl rfl
    · rw [subKA_two]; exact Or.inl rfl
    · rw [subKA_three]; exact Or.inl rfl
    · simp only [List.length_cons] at hl
      by_cases hc : c = '('
      · subst hc
        by_cases hd : d = ')'
        · subst hd
          by_cases hka : kaTok a b = true
          · rw [subKA_match _ _ _ hka]
            rcases i with _ | (_ | (_ | (_ | j)))
            · exact Or.inl rfl
            · obtain ⟨⟨hwa, hpa, hqa⟩, _⟩ := kaTok_facts hka
              exact Or.inr ⟨a, 'K', rfl, rfl, hwa, hpa, hqa, by decide,
                by decide, by decide⟩
            · obtain ⟨_, hwb, hpb, hqb⟩ := kaTok_facts hka
              exact Or.inr ⟨b, 'A', rfl, rfl, hwb, hpb, hqb, by decide,
                by decide, by decide⟩
            · exact Or.inl rfl
            · exact ihn rest (by omega) j
          · rw [subKA_nomatch _ _ _ (by simpa using hka)]
            rcases i with _ | j
            · exact Or.inl rfl
            · exact ihn (a :: b :: ')' :: rest) (by simp; omega) j
        · rw [subKA_ne4 _ _ _ _ _ hd]
          rcases i with _ | j
          · exact Or.inl rfl
          · exact ihn (a :: b :: d :: rest) (by simp; omega) j
      · rw [subKA_cons_ne _ _ hc]
        rcases i with _ | j
        · exact Or.inl rfl
        · exact ihn (a :: b :: d :: rest) (by simp; omega) j

theorem subKA_pointwise (l : List Char) (i : Nat) :
    charShapeOK (l.get? i) ((subKA l).get? i) :=
  subKA_pointwise_aux l.length l (Nat.le_refl _) i

theorem upperL_pointwise (l : List Char) (i : Nat) :
    charShapeOK (l.get? i) ((l.map upperChar).get? i) := by
  rw [List.get?_map]
  cases h : l.get? i with
  | none => exact Or.inl rfl
  | some c =>
    rcases mapChar_self_or_mem upperPairs c with ⟨h2, _⟩ | hm
    · exact Or.inl (congrArg some h2.symm)
    · have F : ∀ p ∈ upperPairs, isWs p.1 = false ∧ p.1 ≠ '(' ∧ p.1 ≠ ')' ∧
          isWs p.2 = false ∧ p.2 ≠ '(' ∧ p.2 ≠ ')' := by decide
      obtain ⟨f1, f2, f3, f4, f5, f6⟩ := F _ hm
      exact Or.inr ⟨c, upperChar c, rfl, rfl, f1, f2, f3, f4, f5, f6⟩

/-! ### Transfer of the space structure across pointwise-shaped rewrites -/

theorem spaceInv_transfer (l m : List Char)
    (h : ∀ i, charShapeOK (l.get? i) (m.get? i)) (hs : spaceInv l) :
    spaceInv m := by
  obtain ⟨h1, h2, h3, h4, h5⟩ := hs
  have hsp : ∀ i, m.get? i = some ' ' → l.get? i = some ' ' := by
    intro i hi
    rcases h i with he | ⟨c, c2, hc, hc2, _, _, _, hw2, _, _⟩
    · rw [he]; exact hi
    · rw [hi, Option.some.injEq] at hc2
      subst hc2
      exact absurd hw2 (by decide)
  have hsp2 : ∀ i, l.get? i = some ' ' → m.get? i = some ' ' := by
    intro i hi
    rcases h i with he | ⟨c, c2, hc, hc2, hw, _, _, _, _, _⟩
    · rw [← he]; exact hi
    · rw [hi, Option.some.injEq] at hc
      subst hc
      exact absurd hw (by decide)
  have hpar : ∀ i, m.get? i = some '(' → l.get? i = some '(' := by
    intro i hi
    rcases h i with he | ⟨c, c2, hc, hc2, _, _, _, _, hp2, _⟩
    · rw [he]; exact hi
    · rw [hi, Option.some.injEq] at hc2
      exact absurd hc2.symm hp2
  have hpar2 : ∀ i, l.get? i = some '(' → m.get? i = some '(' := by
    intro i hi
    rcases h i with he | ⟨c, c2, hc, hc2, _, hp, _, _, _, _⟩
    · rw [← he]; exact hi
    · rw [hi, Option.some.injEq] at hc
      exact absurd hc.symm hp
  have hnone : ∀ i, l.get? i = none → m.get? i = none := by
    intro i hi
    rcases h i with he | ⟨c, c2, hc, _, _, _, _, _, _, _⟩
    · rw [← he]; exact hi
    · rw [hi] at hc
      exact absurd hc (by simp)
  refine ⟨?_, ?_, ?_, ?_, ?_⟩
  · intro i c hc hw
    rcases h i with he | ⟨c1, c2, hc1, hc2, _, _, _, hw2, _, _⟩
    · exact h1 i c (he ▸ hc) hw
    · rw [hc, Option.some.injEq] at hc2
      subst hc2
      rw [hw] at hw2
      exact absurd hw2 (by decide)
  · intro i ⟨ha, hb⟩
    exact h2 i ⟨hsp i ha, hsp (i + 1) hb⟩
  · intro i hi
    obtain ⟨hge, hsp1⟩ := h3 i (hpar i hi)
    exact ⟨hge, hsp2 _ hsp1⟩
  · intro i hi hn
    have := h4 i (hsp i hi)
    rcases hh : l.get? (i + 1) with _ | c
    · exact this hh
    · rcases h (i + 1) with he | ⟨c1, c2, hc1, hc2, _, _, _, _, _, _⟩
      · rw [← he, hh] at hn; exact absurd hn (by simp)
      · rw [hn] at hc2; exact absurd hc2 (by simp)
  · intro hi
    exact hpar2 1 (h5 (hsp 0 hi))

/-! ### Canonicity transfer across uppercasing -/

theorem koCanonP_upperL (l : List Char) (h : koCanonP l) :
    koCanonP (l.map upperChar) := by
  intro i a b hi ha hb hcl hko
  rw [List.get?_map] at hi ha hb hcl
  obtain ⟨c0, hc0, hcu⟩ := Option.map_eq_some'.mp hi
  obtain ⟨a0, ha0, hau⟩ := Option.map_eq_some'.mp ha
  obtain ⟨b0, hb0, hbu⟩ := Option.map_eq_some'.mp hb
  obtain ⟨d0, hd0, hdu⟩ := Option.map_eq_some'.mp hcl
  have hc0p : c0 = '(' := ((upperChar_paren c0).1).mp hcu
  have hd0p : d0 = ')' := ((upperChar_paren d0).2.1).mp hdu
  subst hc0p; subst hd0p
  have hko0 : koTok a0 b0 = true := by
    rw [← upperChar_koTok, hau, hbu]; exact hko
  obtain ⟨rfl, rfl⟩ := h i a0 b0 hc0 ha0 hb0 hd0 hko0
  constructor
  · rw [← hau]; decide
  · rw [← hbu]; decide

theorem kaCanonP_upperL (l : List Char) (h : kaCanonP l) :
    kaCanonP (l.map upperChar) := by
  intro i a b hi ha hb hcl hka
  rw [List.get?_map] at hi ha hb hcl
  obtain ⟨c0, hc0, hcu⟩ := Option.map_eq_some'.mp hi
  obtain ⟨a0, ha0, hau⟩ := Option.map_eq_some'.mp ha
  obtain ⟨b0, hb0, hbu⟩ := Option.map_eq_some'.mp hb
  obtain ⟨d0, hd0, hdu⟩ := Option.map_eq_some'.mp hcl
  have hc0p : c0 = '(' := ((upperChar_paren c0).1).mp hcu
  have hd0p : d0 = ')' := ((upperChar_paren d0).2.1).mp hdu
  subst hc0p; subst hd0p
  have hka0 : kaTok a0 b0 = true := by
    rw [← upperChar_kaTok, hau, hbu]; exact hka
  obtain ⟨rfl, rfl⟩ := h i a0 b0 hc0 ha0 hb0 hd0 hka0
  constructor
  · rw [← hau]; decide
  · rw [← hbu]; decide

/-! ### Canonicity of the rewrite outputs -/

theorem koCanonP_short (l : List Char) (h : l.length ≤ 3) : koCanonP l :=
  fun i a b _ _ _ hcl _ =>
    absurd hcl (by rw [List.get?_eq_none.mpr (by omega)]; simp)

theorem kaCanonP_short (l : List Char) (h : l.length ≤ 3) : kaCanonP l :=
  fun i a b _ _ _ hcl _ =>
    absurd hcl (by rw [List.get?_eq_none.mpr (by omega)]; simp)

theorem koCanonP_cons (c : Char) (l : List Char)
    (hhead : ∀ a b, c = '(' → l.get? 0 = some a → l.get? 1 = some b →
      l.get? 2 = some ')' → koTok a b = true → a = 'K' ∧ b = 'O')
    (hl : koCanonP l) : koCanonP (c :: l) := by
  intro i a b hi ha hb hcl hko
  rcases i with _ | j
  · rw [List.get?_cons_zero, Option.some.injEq] at hi
    exact hhead a b hi ha hb hcl hko
  · exact hl j a b hi ha hb hcl hko

theorem kaCanonP_cons (c : Char) (l : List Char)
    (hhead : ∀ a b, c = '(' → l.get? 0 = some a → l.get? 1 = some b →
      l.get? 2 = some ')' → kaTok a b = true → a = 'K' ∧ b = 'A')
    (hl : kaCanonP l) : kaCanonP (c :: l) := by
  intro i a b hi ha hb hcl hka
  rcases i with _ | j
  · rw [List.get?_cons_zero, Option.some.injEq] at hi
    exact hhead a b hi ha hb hcl hka
  · exact hl j a b hi ha hb hcl hka

theorem koCanonP_of_cons {c : Char} {l : List Char}
    (h : koCanonP (c :: l)) : koCanonP l :=
  fun i a b hi ha hb hcl hko => h (i + 1) a b hi ha hb hcl hko

theorem kaCanonP_of_cons {c : Char} {l : List Char}
    (h : kaCanonP (c :: l)) : kaCanonP l :=
  fun i a b hi ha hb hcl hka => h (i + 1) a b hi ha hb hcl hka

theorem koCanon_subKO_aux :
    ∀ (n : Nat) (l : List Char), l.length ≤ n → koCanonP (subKO l) := by
  intro n
  induction n with
  | zero =>
    intro l hl
    have : l = [] := List.eq_nil_of_length_eq_zero (Nat.le_zero.mp hl)
    subst this
    exact koCanonP_short _ (by simp [subKO])
  | succ n ihn =>
    intro l hl
    rcases l with _ | ⟨c, _ | ⟨a, _ | ⟨b, _ | ⟨d, rest⟩⟩⟩⟩
    · exact koCanonP_short _ (by simp [subKO])
    · rw [subKO_one]; exact koCanonP_short _ (by simp)
    · rw [subKO_two]; exact koCanonP_short _ (by simp)
    · rw [subKO_three]; exact koCanonP_short _ (by simp)
    · simp only [List.length_cons] at hl
      by_cases hc : c = '('
      · subst hc
        by_cases hd : d = ')'
        · subst hd
          by_cases hko : koTok a b = true
          · rw [subKO_match _ _ _ hko]
            refine koCanonP_cons _ _ ?_ (koCanonP_cons _ _ ?_ (koCanonP_cons _ _ ?_
              (koCanonP_cons _ _ ?_ (ihn rest (by omega)))))
            · intro a2 b2 _ h0 h1 _ hko2
              rw [List.get?_cons_zero, Option.some.injEq] at h0
              rw [List.get?_cons_succ, List.get?_cons_zero, Option.some.injEq] at h1
              exact ⟨h0.symm, h1.symm⟩
            · intro a2 b2 hcc; exact absurd hcc (by decide)
            · intro a2 b2 hcc; exact absurd hcc (by decide)
            · intro a2 b2 hcc; exact absurd hcc (by decide)
          · have hko2 : koTok a b = false := by simpa using hko
            rw [subKO_nomatch _ _ _ hko2]
            refine koCanonP_cons _ _ ?_ (ihn (a :: b :: ')' :: rest) (by simp; omega))
            intro a2 b2 _ h0 h1 _ hko3
            rw [List.get?_zero, subKO_head] at h0
            rw [List.head?_cons, Option.some.injEq] at h0
            subst h0
            obtain ⟨⟨_, hap, _⟩, _⟩ := koTok_facts hko3
            rw [subKO_cons_ne _ _ hap, List.get?_cons_succ, List.get?_zero,
              subKO_head, List.head?_cons, Option.some.injEq] at h1
            subst h1
            rw [hko3] at hko2
            exact absurd hko2 (by simp)
        · rw [subKO_ne4 _ _ _ _ _ hd]
          refine koCanonP_cons _ _ ?_ (ihn (a :: b :: d :: rest) (by simp; omega))
          intro a2 b2 _ h0 h1 h2 hko3
          rw [List.get?_zero, subKO_head, List.head?_cons, Option.some.injEq] at h0
          subst h0
          obtain ⟨⟨_, hap, _⟩, ⟨_, hbp, _⟩⟩ := koTok_facts hko3
          rw [subKO_cons_ne _ _ hap, List.get?_cons_succ, List.get?_zero,
            subKO_head, List.head?_cons, Option.some.injEq] at h1
          subst h1
          rw [subKO_cons_ne _ _ hap, List.get?_cons_succ,
            subKO_cons_ne _ _ hbp, List.get?_cons_succ, List.get?_zero,
            subKO_head, List.head?_cons, Option.some.injEq] at h2
          exact absurd h2 hd
      · rw [subKO_cons_ne _ _ hc]
        refine koCanonP_cons _ _ ?_ (ihn (a :: b :: d :: rest) (by simp; omega))
        intro a2 b2 hcc
        exact absurd hcc hc

theorem koCanon_subKO (l : List Char) : koCanonP (subKO l) :=
  koCanon_subKO_aux l.length l (Nat.le_refl _)

theorem kaCanon_subKA_aux :
    ∀ (n : Nat) (l : List Char), l.length ≤ n → kaCanonP (subKA l) := by
  intro n
  induction n with
  | zero =>
    intro l hl
    have : l = [] := List.eq_nil_of_length_eq_zero (Nat.le_zero.mp hl)
    subst this
    exact kaCanonP_short _ (by simp [subKA])
  | succ n ihn =>
    intro l hl
    rcases l with _ | ⟨c, _ | ⟨a, _ | ⟨b, _ | ⟨d, rest⟩⟩⟩⟩
    · exact kaCanonP_short _ (by simp [subKA])
    · rw [subKA_one]; exact kaCanonP_short _ (by simp)
    · rw [subKA_two]; exact kaCanonP_short _ (by simp)
    · rw [subKA_three]; exact kaCanonP_short _ (by simp)
    · simp only [List.length_cons] at hl
      by_cases hc : c = '('
      · subst hc
        by_cases hd : d = ')'
        · subst hd
          by_cases hka : kaTok a b = true
          · rw [subKA_match _ _ _ hka]
            refine kaCanonP_cons _ _ ?_ (kaCanonP_cons _ _ ?_ (kaCanonP_cons _ _ ?_
              (kaCanonP_cons _ _ ?_ (ihn rest (by omega)))))
            · intro a2 b2 _ h0 h1 _ hka2
              rw [List.get?_cons_zero, Option.some.injEq] at h0
              rw [List.get?_cons_succ, List.get?_cons_zero, Option.some.injEq] at h1
              exact ⟨h0.symm, h1.symm⟩
            · intro a2 b2 hcc; exact absurd hcc (by decide)
            · intro a2 b2 hcc; exact absurd hcc (by decide)
            · intro a2 b2 hcc; exact absurd hcc (by decide)
          · have hka2 : kaTok a b = false := by simpa using hka
            rw [subKA_nomatch _ _ _ hka2]
            refine kaCanonP_cons _ _ ?_ (ihn (a :: b :: ')' :: rest) (by simp; omega))
            intro a2 b2 _ h0 h1 _ hka3
            rw [List.get?_zero, subKA_head, List.head?_cons, Option.some.injEq] at h0
            subst h0
            obtain ⟨⟨_, hap, _⟩, _⟩ := kaTok_facts hka3
            rw [subKA_cons_ne _ _ hap, List.get?_cons_succ, List.get?_zero,
              subKA_head, List.head?_cons, Option.some.injEq] at h1
            subst h1
            rw [hka3] at hka2
            exact absurd hka2 (by simp)
        · rw [subKA_ne4 _ _ _ _ _ hd]
          refine kaCanonP_cons _ _ ?_ (ihn (a :: b :: d :: rest) (by simp; omega))
          intro a2 b2 _ h0 h1 h2 hka3
          rw [List.get?_zero, subKA_head, List.head?_cons, Option.some.injEq] at h0
          subst h0
          obtain ⟨⟨_, hap, _⟩, ⟨_, hbp, _⟩⟩ := kaTok_facts hka3
          rw [subKA_cons_ne _ _ hap, List.get?_cons_succ, List.get?_zero,
            subKA_head, List.head?_cons, Option.some.injEq] at h1
          subst h1
          rw [subKA_cons_ne _ _ hap, List.get?_cons_succ,
            subKA_cons_ne _ _ hbp, List.get?_cons_succ, List.get?_zero,
            subKA_head, List.head?_cons, Option.some.injEq] at h2
          exact absurd h2 hd
      · rw [subKA_cons_ne _ _ hc]
        refine kaCanonP_cons _ _ ?_ (ihn (a :: b :: d :: rest) (by simp; omega))
        intro a2 b2 hcc
        exact absurd hcc hc

theorem kaCanon_subKA (l : List Char) : kaCanonP (subKA l) :=
  kaCanon_subKA_aux l.length l (Nat.le_refl _)

theorem koCanon_subKA_aux :
    ∀ (n : Nat) (l : List Char), l.length ≤ n → koCanonP l →
      koCanonP (subKA l) := by
  intro n
  induction n with
  | zero =>
    intro l hl _
    have : l = [] := List.eq_nil_of_length_eq_zero (Nat.le_zero.mp hl)
    subst this
    exact koCanonP_short _ (by simp [subKA])
  | succ n ihn =>
    intro l hl hy
    rcases l with _ | ⟨c, _ | ⟨a, _ | ⟨b, _ | ⟨d, rest⟩⟩⟩⟩
    · exact koCanonP_short _ (by simp [subKA])
    · rw [subKA_one]; exact koCanonP_short _ (by simp)
    · rw [subKA_two]; exact koCanonP_short _ (by simp)
    · rw [subKA_three]; exact koCanonP_short _ (by simp)
    · simp only [List.length_cons] at hl
      by_cases hc : c = '('
      · subst hc
        by_cases hd : d = ')'
        · subst hd
          by_cases hka : kaTok a b = true
          · rw [subKA_match _ _ _ hka]
            refine koCanonP_cons _ _ ?_ (koCanonP_cons _ _ ?_ (koCanonP_cons _ _ ?_
              (koCanonP_cons _ _ ?_ (ihn rest (by omega)
                (koCanonP_of_cons (koCanonP_of_cons (koCanonP_of_cons
                  (koCanonP_of_cons hy))))))))
            · intro a2 b2 _ h0 h1 _ hko2
              rw [List.get?_cons_zero, Option.some.injEq] at h0
              rw [List.get?_cons_succ, List.get?_cons_zero, Option.some.injEq] at h1
              subst h0; subst h1
              exact absurd hko2 (by decide)
            · intro a2 b2 hcc; exact absurd hcc (by decide)
            · intro a2 b2 hcc; exact absurd hcc (by decide)
            · intro a2 b2 hcc; exact absurd hcc (by decide)
          · have hka2 : kaTok a b = false := by simpa using hka
            rw [subKA_nomatch _ _ _ hka2]
            refine koCanonP_cons _ _ ?_
              (ihn (a :: b :: ')' :: rest) (by simp; omega) (koCanonP_of_cons hy))
            intro a2 b2 _ h0 h1 _ hko3
            rw [List.get?_zero, subKA_head, List.head?_cons, Option.some.injEq] at h0
            subst h0
            obtain ⟨⟨_, hap, _⟩, _⟩ := koTok_facts hko3
            rw [subKA_cons_ne _ _ hap, List.get?_cons_succ, List.get?_zero,
              subKA_head, List.head?_cons, Option.some.injEq] at h1
            subst h1
            exact hy 0 a b rfl rfl rfl rfl hko3
        · rw [subKA_ne4 _ _ _ _ _ hd]
          refine koCanonP_cons _ _ ?_
            (ihn (a :: b :: d :: rest) (by simp; omega) (koCanonP_of_cons hy))
          intro a2 b2 _ h0 h1 h2 hko3
          rw [List.get?_zero, subKA_head, List.head?_cons, Option.some.injEq] at h0
          subst h0
          obtain ⟨⟨_, hap, _⟩, ⟨_, hbp, _⟩⟩ := koTok_facts hko3
          rw [subKA_cons_ne _ _ hap, List.get?_cons_succ, List.get?_zero,
            subKA_head, List.head?_cons, Option.some.injEq] at h1
          subst h1
          rw [subKA_cons_ne _ _ hap, List.get?_cons_succ,
            subKA_cons_ne _ _ hbp, List.get?_cons_succ, List.get?_zero,
            subKA_head, List.head?_cons, Option.some.injEq] at h2
          exact absurd h2 hd
      · rw [subKA_cons_ne _ _ hc]
        refine koCanonP_cons _ _ ?_
          (ihn (a :: b :: d :: rest) (by simp; omega) (koCanonP_of_cons hy))
        intro a2 b2 hcc
        exact absurd hcc hc

theorem koCanon_subKA (l : List Char) (h : koCanonP l) : koCanonP (subKA l) :=
  koCanon_subKA_aux l.length l (Nat.le_refl _) h

/-! ### Canonical lists are fixed by the rewrites -/

theorem subKO_eq_self_aux :
    ∀ (n : Nat) (l : List Char), l.length ≤ n → koCanonP l → subKO l = l := by
  intro n
  induction n with
  | zero =>
    intro l hl _
    have : l = [] := List.eq_nil_of_length_eq_zero (Nat.le_zero.mp hl)
    subst this
    rfl
  | succ n ihn =>
    intro l hl hy
    rcases l with _ | ⟨c, _ | ⟨a, _ | ⟨b, _ | ⟨d, rest⟩⟩⟩⟩
    · rfl
    · exact subKO_one c
    · exact subKO_two c a
    · exact subKO_three c a b
    · simp only [List.length_cons] at hl
      by_cases hc : c = '('
      · subst hc
        by_cases hd : d = ')'
        · subst hd
          by_cases hko : koTok a b = true
          · obtain ⟨rfl, rfl⟩ := hy 0 a b rfl rfl rfl rfl hko
            rw [subKO_match _ _ _ hko,
              ihn rest (by omega)
                (koCanonP_of_cons (koCanonP_of_cons (koCanonP_of_cons
                  (koCanonP_of_cons hy))))]
          · rw [subKO_nomatch _ _ _ (by simpa using hko),
              ihn (a :: b :: ')' :: rest) (by simp; omega) (koCanonP_of_cons hy)]
        · rw [subKO_ne4 _ _ _ _ _ hd,
            ihn (a :: b :: d :: rest) (by simp; omega) (koCanonP_of_cons hy)]
      · rw [subKO_cons_ne _ _ hc,
          ihn (a :: b :: d :: rest) (by simp; omega) (koCanonP_of_cons hy)]

theorem subKO_eq_self (l : List Char) (h : koCanonP l) : subKO l = l :=
  subKO_eq_self_aux l.length l (Nat.le_refl _) h

theorem subKA_eq_self_aux :
    ∀ (n : Nat) (l : List Char), l.length ≤ n → kaCanonP l → subKA l = l := by
  intro n
  induction n with
  | zero =>
    intro l hl _
    have : l = [] := List.eq_nil_of_length_eq_zero (Nat.le_zero.mp hl)
    subst this
    rfl
  | succ n ihn =>
    intro l hl hy
    rcases l with _ | ⟨c, _ | ⟨a, _ | ⟨b, _ | ⟨d, rest⟩⟩⟩⟩
    · rfl
    · exact subKA_one c
    · exact subKA_two c a
    · exact subKA_three c a b
    · simp only [List.length_cons] at hl
      by_cases hc : c = '('
      · subst hc
        by_cases hd : d = ')'
        · subst hd
          by_cases hka : kaTok a b = true
          · obtain ⟨rfl, rfl⟩ := hy 0 a b rfl rfl rfl rfl hka
            rw [subKA_match _ _ _ hka,
              ihn rest (by omega)
                (kaCanonP_of_cons (kaCanonP_of_cons (kaCanonP_of_cons
                  (kaCanonP_of_cons hy))))]
          · rw [subKA_nomatch _ _ _ (by simpa using hka),
              ihn (a :: b :: ')' :: rest) (by simp; omega) (kaCanonP_of_cons hy)]
        · rw [subKA_ne4 _ _ _ _ _ hd,
            ihn (a :: b :: d :: rest) (by simp; omega) (kaCanonP_of_cons hy)]
      · rw [subKA_cons_ne _ _ hc,
          ihn (a :: b :: d :: rest) (by simp; omega) (kaCanonP_of_cons hy)]

theorem subKA_eq_self (l : List Char) (h : kaCanonP l) : subKA l = l :=
  subKA_eq_self_aux l.length l (Nat.le_refl _) h

/-! ### Character provenance through the pipeline -/

theorem mem_pyStripL {c : Char} {l : List Char} (h : c ∈ pyStripL l) : c ∈ l := by
  unfold pyStripL at h
  rw [List.mem_reverse] at h
  have h2 := (List.dropWhile_sublist isWs).subset h
  rw [List.mem_reverse] at h2
  exact (List.dropWhile_sublist isWs).subset h2

theorem mem_collapseAux {c : Char} :
    ∀ (b : Bool) (l : List Char), c ∈ collapseAux b l → c ∈ l ∨ c = ' ' := by
  intro b l
  induction l generalizing b with
  | nil => intro h; simp [collapseAux] at h
  | cons d ds ih =>
    intro h
    by_cases hw : isWs d
    · rw [collapseAux, if_pos hw] at h
      by_cases hb : b = true
      · subst hb
        simp only [if_pos rfl] at h
        rcases ih true h with h2 | h2
        · exact Or.inl (List.mem_cons_of_mem _ h2)
        · exact Or.inr h2
      · rw [if_neg hb] at h
        rcases List.mem_cons.mp h with rfl | h2
        · exact Or.inr rfl
        · rcases ih true h2 with h3 | h3
          · exact Or.inl (List.mem_cons_of_mem _ h3)
          · exact Or.inr h3
    · rw [collapseAux, if_neg hw] at h
      rcases List.mem_cons.mp h with rfl | h2
      · exact Or.inl (List.mem_cons_self _ _)
      · rcases ih false h2 with h3 | h3
        · exact Or.inl (List.mem_cons_of_mem _ h3)
        · exact Or.inr h3

theorem mem_sub3 {c : Char} :
    ∀ (l pend : List Char), c ∈ sub3 pend l →
      c ∈ pend ∨ c ∈ l ∨ c = ' ' ∨ c = '(' := by
  intro l
  induction l with
  | nil => intro pend h; rw [sub3] at h; exact Or.inl h
  | cons d ds ih =>
    intro pend h
    rw [sub3] at h
    by_cases hw : isWs d
    · rw [if_pos hw] at h
      rcases ih (pend ++ [d]) h with h2 | h2 | h2 | h2
      · rcases List.mem_append.mp h2 with h3 | h3
        · exact Or.inl h3
        · simp only [List.mem_singleton] at h3
          subst h3
          exact Or.inr (Or.inl (List.mem_cons_self _ _))
      · exact Or.inr (Or.inl (List.mem_cons_of_mem _ h2))
      · exact Or.inr (Or.inr (Or.inl h2))
      · exact Or.inr (Or.inr (Or.inr h2))
    · rw [if_neg hw] at h
      by_cases hp : d = '('
      · rw [if_pos hp] at h
        rcases List.mem_cons.mp h with rfl | h2
        · exact Or.inr (Or.inr (Or.inl rfl))
        · rcases List.mem_cons.mp h2 with rfl | h3
          · exact Or.inr (Or.inr (Or.inr rfl))
          · rcases ih [] h3 with h4 | h4 | h4 | h4
            · simp at h4
            · exact Or.inr (Or.inl (List.mem_cons_of_mem _ h4))
            · exact Or.inr (Or.inr (Or.inl h4))
            · exact Or.inr (Or.inr (Or.inr h4))
      · rw [if_neg hp] at h
        rcases List.mem_append.mp h with h2 | h2
        · exact Or.inl h2
        · rcases List.mem_cons.mp h2 with rfl | h3
          · exact Or.inr (Or.inl (List.mem_cons_self _ _))
          · rcases ih [] h3 with h4 | h4 | h4 | h4
            · simp at h4
            · exact Or.inr (Or.inl (List.mem_cons_of_mem _ h4))
            · exact Or.inr (Or.inr (Or.inl h4))
            · exact Or.inr (Or.inr (Or.inr h4))

theorem mem_subKO_aux {c : Char} :
    ∀ (n : Nat) (l : List Char), l.length ≤ n → c ∈ subKO l →
      c ∈ l ∨ c = 'K' ∨ c = 'O' := by
  intro n
  induction n with
  | zero =>
    intro l hl h
    have : l = [] := List.eq_nil_of_length_eq_zero (Nat.le_zero.mp hl)
    subst this
    simp [subKO] at h
  | succ n ihn =>
    intro l hl h
    rcases l with _ | ⟨c0, _ | ⟨a, _ | ⟨b, _ | ⟨d, rest⟩⟩⟩⟩
    · simp [subKO] at h
    · rw [subKO_one] at h; exact Or.inl h
    · rw [subKO_two] at h; exact Or.inl h
    · rw [subKO_three] at h; exact Or.inl h
    · simp only [List.length_cons] at hl
      by_cases hc : c0 = '('
      · subst hc
        by_cases hd : d = ')'
        · subst hd
          by_cases hko : koTok a b = true
          · rw [subKO_match _ _ _ hko] at h
            rcases List.mem_cons.mp h with rfl | h
            · exact Or.inl (by simp)
            · rcases List.mem_cons.mp h with rfl | h
              · exact Or.inr (Or.inl rfl)
              · rcases List.mem_cons.mp h with rfl | h
                · exact Or.inr (Or.inr rfl)
                · rcases List.mem_cons.mp h with rfl | h
                  · exact Or.inl (by simp)
                  · rcases ihn rest (by omega) h with h2 | h2
                    · exact Or.inl (by simp [h2])
                    · exact Or.inr h2
          · rw [subKO_nomatch _ _ _ (by simpa using hko)] at h
            rcases List.mem_cons.mp h with rfl | h
            · exact Or.inl (by simp)
            · rcases ihn (a :: b :: ')' :: rest) (by simp; omega) h with h2 | h2
              · exact Or.inl (by simp [List.mem_cons] at h2 ⊢; tauto)
              · exact Or.inr h2
        · rw [subKO_ne4 _ _ _ _ _ hd] at h
          rcases List.mem_cons.mp h with rfl | h
          · exact Or.inl (by simp)
          · rcases ihn (a :: b :: d :: rest) (by simp; omega) h with h2 | h2
            · exact Or.inl (by simp [List.mem_cons] at h2 ⊢; tauto)
            · exact Or.inr h2
      · rw [subKO_cons_ne _ _ hc] at h
        rcases List.mem_cons.mp h with rfl | h
        · exact Or.inl (by simp)
        · rcases ihn (a :: b :: d :: rest) (by simp; omega) h with h2 | h2
          · exact Or.inl (by simp [List.mem_cons] at h2 ⊢; tauto)
          · exact Or.inr h2

theorem mem_subKO {c : Char} {l : List Char} (h : c ∈ subKO l) :
    c ∈ l ∨ c = 'K' ∨ c = 'O' :=
  mem_subKO_aux l.length l (Nat.le_refl _) h

theorem mem_subKA_aux {c : Char} :
    ∀ (n : Nat) (l : List Char), l.length ≤ n → c ∈ subKA l →
      c ∈ l ∨ c = 'K' ∨ c = 'A' := by
  intro n
  induction n with
  | zero =>
    intro l hl h
    have : l = [] := List.eq_nil_of_length_eq_zero (Nat.le_zero.mp hl)
    subst this
    simp [subKA] at h
  | succ n ihn =>
    intro l hl h
    rcases l with _ | ⟨c0, _ | ⟨a, _ | ⟨b, _ | ⟨d, rest⟩⟩⟩⟩
    · simp [subKA] at h
    · rw [subKA_one] at h; exact Or.inl h
    · rw [subKA_two] at h; exact Or.inl h
    · rw [subKA_three] at h; exact Or.inl h
    · simp only [List.length_cons] at hl
      by_cases hc : c0 = '('
      · subst hc
        by_cases hd : d = ')'
        · subst hd
          by_cases hka : kaTok a b = true
          · rw [subKA_match _ _ _ hka] at h
            rcases List.mem_cons.mp h with rfl | h
            · exact Or.inl (by simp)
            · rcases List.mem_cons.mp h with rfl | h
              · exact Or.inr (Or.inl rfl)
              · rcases List.mem_cons.mp h with rfl | h
                · exact Or.inr (Or.inr rfl)
                · rcases List.mem_cons.mp h with rfl | h
                  · exact Or.inl (by simp)
                  · rcases ihn rest (by omega) h with h2 | h2
                    · exact Or.inl (by simp [h2])
                    · exact Or.inr h2
          · rw [subKA_nomatch _ _ _ (by simpa using hka)] at h
            rcases List.mem_cons.mp h with rfl | h
            · exact Or.inl (by simp)
            · rcases ihn (a :: b :: ')' :: rest) (by simp; omega) h with h2 | h2
              · exact Or.inl (by simp [List.mem_cons] at h2 ⊢; tauto)
              · exact Or.inr h2
        · rw [subKA_ne4 _ _ _ _ _ hd] at h
          rcases List.mem_cons.mp h with rfl | h
          · exact Or.inl (by simp)
          · rcases ihn (a :: b :: d :: rest) (by simp; omega) h with h2 | h2
            · exact Or.inl (by simp [List.mem_cons] at h2 ⊢; tauto)
            · exact Or.inr h2
      · rw [subKA_cons_ne _ _ hc] at h
        rcases List.mem_cons.mp h with rfl | h
        · exact Or.inl (by simp)
        · rcases ihn (a :: b :: d :: rest) (by simp; omega) h with h2 | h2
          · exact Or.inl (by simp [List.mem_cons] at h2 ⊢; tauto)
          · exact Or.inr h2

theorem mem_subKA {c : Char} {l : List Char} (h : c ∈ subKA l) :
    c ∈ l ∨ c = 'K' ∨ c = 'A' :=
  mem_subKA_aux l.length l (Nat.le_refl _) h

/-! ### When no character carries a special-casing expansion, `pyUpper`
is the plain character map -/

theorem deaccent_img_avoid :
    ∀ p ∈ deaccentPairs, List.lookup p.2 upperSpecials = none := by decide

theorem upper_img_avoid :
    ∀ p ∈ upperPairs, List.lookup p.2 upperSpecials = none := by decide

theorem preUpper_avoid (l : List Char)
    (h : ∀ c ∈ l, List.lookup c upperSpecials = none) :
    ∀ d ∈ subKA (subKO (sub3 [] (collapseWs (pyStripL (l.map deaccentChar))))),
      List.lookup d upperSpecials = none := by
  intro d hd
  rcases mem_subKA hd with hd2 | rfl | rfl
  · rcases mem_subKO hd2 with hd3 | rfl | rfl
    · rcases mem_sub3 _ _ hd3 with hd4 | hd4 | rfl | rfl
      · simp at hd4
      · rcases mem_collapseAux _ _ hd4 with hd5 | rfl
        · have hd6 := mem_pyStripL hd5
          obtain ⟨e, he, rfl⟩ := List.mem_map.mp hd6
          rcases mapChar_self_or_mem deaccentPairs e with ⟨heq, _⟩ | hm
          · have h2 : deaccentChar e = e := heq
            rw [h2]
            exact h e he
          · exact deaccent_img_avoid _ hm
        · decide
      · decide
      · decide
    · decide
    · decide
  · decide
  · decide

theorem pyUpper_eq_map (l : List Char)
    (h : ∀ c ∈ l, List.lookup c upperSpecials = none) :
    pyUpper l = l.map upperChar := by
  induction l with
  | nil => rfl
  | cons c cs ih =>
      have hc : List.lookup c upperSpecials = none := h c (List.mem_cons_self c cs)
      have hcs := ih (fun d hd => h d (List.mem_cons_of_mem c hd))
      have h1 : pyUpperChar c = [upperChar c] := by
        unfold pyUpperChar
        rw [hc]
      show ((c :: cs).map pyUpperChar).flatten = (c :: cs).map upperChar
      rw [List.map_cons, List.flatten_cons, h1, List.map_cons]
      rw [show (cs.map pyUpperChar).flatten = pyUpper cs from rfl, hcs]
      rfl

theorem normChars_eq_mapUpper (l : List Char)
    (h : ∀ c ∈ l, List.lookup c upperSpecials = none) :
    normChars l =
      (subKA (subKO (sub3 [] (collapseWs (pyStripL (l.map deaccentChar)))))).map
        upperChar := by
  unfold normChars
  exact pyUpper_eq_map _ (preUpper_avoid l h)

theorem normChars_avoid (l : List Char)
    (h : ∀ c ∈ l, List.lookup c upperSpecials = none) :
    ∀ c ∈ normChars l, List.lookup c upperSpecials = none := by
  intro c hc
  rw [normChars_eq_mapUpper l h] at hc
  obtain ⟨d, hd, rfl⟩ := List.mem_map.mp hc
  rcases mapChar_self_or_mem upperPairs d with ⟨heq, _⟩ | hm
  · have h2 : upperChar d = d := heq
    rw [h2]
    exact preUpper_avoid l h d hd
  · exact upper_img_avoid _ hm

/-- Every character of a `normChars` output is fixed by both de-accenting
and uppercasing, provided no input character carries a special-casing
expansion. -/
theorem normChars_charFix (l : List Char)
    (hav : ∀ c ∈ l, List.lookup c upperSpecials = none)
    {c : Char} (h : c ∈ normChars l) :
    deaccentChar c = c ∧ upperChar c = c := by
  rw [normChars_eq_mapUpper l hav] at h
  obtain ⟨d, hd, rfl⟩ := List.mem_map.mp h
  have hspecial : ∀ e : Char, e = ' ' ∨ e = '(' ∨ e = 'K' ∨ e = 'O' ∨ e = 'A' →
      deaccentChar (upperChar e) = upperChar e ∧
      upperChar (upperChar e) = upperChar e := by
    intro e he
    rcases he with rfl | rfl | rfl | rfl | rfl <;> exact ⟨by decide, by decide⟩
  rcases mem_subKA hd with hd2 | rfl | rfl
  · rcases mem_subKO hd2 with hd3 | rfl | rfl
    · rcases mem_sub3 _ _ hd3 with hd4 | hd4 | rfl | rfl
      · simp at hd4
      · rcases mem_collapseAux _ _ hd4 with hd5 | rfl
        · have hd6 := mem_pyStripL hd5
          obtain ⟨y, _, rfl⟩ := List.mem_map.mp hd6
          exact charFix_of_deaccent_img _ (deaccentChar_notin y)
        · exact hspecial _ (Or.inl rfl)
      · exact hspecial _ (Or.inl rfl)
      · exact hspecial _ (Or.inr (Or.inl rfl))
    · exact hspecial _ (Or.inr (Or.inr (Or.inl rfl)))
    · exact hspecial _ (Or.inr (Or.inr (Or.inr (Or.inl rfl))))
  · exact hspecial _ (Or.inr (Or.inr (Or.inl rfl)))
  · exact hspecial _ (Or.inr (Or.inr (Or.inr (Or.inr rfl))))

/-! ### Equation lemmas for the whitespace passes -/

theorem collapseAux_ws_t (c : Char) (cs : List Char) (h : isWs c = true) :
    collapseAux true (c :: cs) = collapseAux true cs := by
  simp [collapseAux, h]

theorem collapseAux_ws_f (c : Char) (cs : List Char) (h : isWs c = true) :
    collapseAux false (c :: cs) = ' ' :: collapseAux true cs := by
  simp [collapseAux, h]

theorem collapseAux_nws (b : Bool) (c : Char) (cs : List Char) (h : isWs c = false) :
    collapseAux b (c :: cs) = c :: collapseAux false cs := by
  simp [collapseAux, h]

theorem sub3_nil (pend : List Char) : sub3 pend [] = pend := rfl

theorem sub3_ws (pend : List Char) (c : Char) (cs : List Char) (h : isWs c = true) :
    sub3 pend (c :: cs) = sub3 (pend ++ [c]) cs := by
  simp [sub3, h]

theorem sub3_paren (pend : List Char) (cs : List Char) :
    sub3 pend ('(' :: cs) = ' ' :: '(' :: sub3 [] cs := by
  have h1 : isWs '(' = false := by decide
  simp [sub3, h1]

theorem sub3_other (pend : List Char) (c : Char) (cs : List Char)
    (h1 : isWs c = false) (h2 : c ≠ '(') :
    sub3 pend (c :: cs) = pend ++ c :: sub3 [] cs := by
  simp [sub3, h1, h2]

/-! ### Introduction and tail lemmas for the positional predicates -/

theorem wsSpP_nil : wsSpP [] := by
  intro i c h _
  simp at h

theorem noAdjP_nil : noAdjP [] := by
  intro i h
  obtain ⟨h1, _⟩ := h
  simp at h1

theorem noTrailP_nil : noTrailP [] := by
  intro i h
  simp at h

theorem parenSpacedP_nil : parenSpacedP [] := by
  intro i h
  simp at h

theorem wsSpP_cons (c : Char) (l : List Char)
    (hc : isWs c = true → c = ' ') (hl : wsSpP l) : wsSpP (c :: l) := by
  intro i d h hw
  cases i with
  | zero =>
      rw [List.get?_cons_zero, Option.some.injEq] at h
      subst h
      exact hc hw
  | succ j =>
      rw [List.get?_cons_succ] at h
      exact hl j d h hw

theorem noAdjP_cons (c : Char) (l : List Char)
    (hc : c = ' ' → l.get? 0 ≠ some ' ') (hl : noAdjP l) : noAdjP (c :: l) := by
  intro i h
  obtain ⟨h1, h2⟩ := h
  cases i with
  | zero =>
      rw [List.get?_cons_zero, Option.some.injEq] at h1
      rw [List.get?_cons_succ] at h2
      exact hc h1 h2
  | succ j =>
      rw [List.get?_cons_succ] at h1
      rw [List.get?_cons_succ] at h2
      exact hl j ⟨h1, h2⟩

theorem noTrailP_cons (c : Char) (l : List Char)
    (hc : c = ' ' → l ≠ []) (hl : noTrailP l) : noTrailP (c :: l) := by
  intro i h
  cases i with
  | zero =>
      rw [List.get?_cons_zero, Option.some.injEq] at h
      have hne := hc h
      rw [List.get?_cons_succ]
      cases l with
      | nil => exact absurd rfl hne
      | cons e es => simp
  | succ j =>
      rw [List.get?_cons_succ] at h
      rw [List.get?_cons_succ]
      exact hl j h

theorem parenSpacedP_cons (c : Char) (l : List Char) (hc : c ≠ '(')
    (h0 : l.get? 0 = some '(' → c = ' ') (hl : parenSpacedP l) :
    parenSpacedP (c :: l) := by
  intro i h
  cases i with
  | zero =>
      rw [List.get?_cons_zero, Option.some.injEq] at h
      exact absurd h hc
  | succ j =>
      rw [List.get?_cons_succ] at h
      cases j with
      | zero =>
          refine ⟨Nat.le_refl 1, ?_⟩
          show (c :: l).get? 0 = some ' '
          rw [List.get?_cons_zero, h0 h]
      | succ k =>
          obtain ⟨_, hk2⟩ := hl (k + 1) h
          refine ⟨by omega, ?_⟩
          show (c :: l).get? (k + 1) = some ' '
          rw [List.get?_cons_succ]
          exact hk2

theorem parenSpacedP_sp_paren (l : List Char)
    (h0 : l.get? 0 ≠ some '(') (hl : parenSpacedP l) :
    parenSpacedP (' ' :: '(' :: l) := by
  intro i h
  cases i with
  | zero =>
      rw [List.get?_cons_zero, Option.some.injEq] at h
      exact absurd h (by decide)
  | succ j =>
      cases j with
      | zero => exact ⟨Nat.le_refl 1, rfl⟩
      | succ k =>
          rw [List.get?_cons_succ, List.get?_cons_succ] at h
          cases k with
          | zero => exact absurd h h0
          | succ m =>
              obtain ⟨_, hm2⟩ := hl (m + 1) h
              refine ⟨by omega, ?_⟩
              show (' ' :: '(' :: l).get? (m + 2) = some ' '
              rw [List.get?_cons_succ, List.get?_cons_succ]
              exact hm2

theorem wsSpP_tail {c : Char} {l : List Char} (h : wsSpP (c :: l)) : wsSpP l := by
  intro i d hd hw
  exact h (i + 1) d (by rw [List.get?_cons_succ]; exact hd) hw

theorem noAdjP_tail {c : Char} {l : List Char} (h : noAdjP (c :: l)) : noAdjP l := by
  intro i hi
  exact h (i + 1) ⟨by rw [List.get?_cons_succ]; exact hi.1,
    by rw [List.get?_cons_succ]; exact hi.2⟩

theorem noTrailP_tail {c : Char} {l : List Char} (h : noTrailP (c :: l)) :
    noTrailP l := by
  intro i hi
  have h2 := h (i + 1) (by rw [List.get?_cons_succ]; exact hi)
  rw [List.get?_cons_succ] at h2
  exact h2

theorem parenTailP_tail {c : Char} {l : List Char} (h : parenTailP (c :: l)) :
    parenTailP l := by
  intro i hi
  have h2 := h (i + 1) (by rw [List.get?_cons_succ]; exact hi)
  rw [List.get?_cons_succ] at h2
  exact h2

theorem parenTailP_of_spaced (l : List Char) (h : parenSpacedP l) :
    parenTailP l := by
  intro i hi
  exact (h (i + 1) hi).2

theorem lastNonWs_tail (c : Char) (cs : List Char) (h : lastNonWs (c :: cs)) :
    lastNonWs cs := by
  intro d hd
  apply h
  cases cs with
  | nil => simp at hd
  | cons e es =>
      rw [List.getLast?_cons_cons]
      exact hd

theorem lastNonWs_mem (c : Char) (cs : List Char) (h : lastNonWs (c :: cs))
    (hc : isWs c = true) : ∃ e ∈ cs, isWs e = false := by
  cases cs with
  | nil =>
      have h2 := h c (by rw [List.getLast?_eq_get?]; rfl)
      rw [h2] at hc
      exact absurd hc (by decide)
  | cons e es =>
      rcases hq : (e :: es).getLast? with _ | d
      · rw [List.getLast?_eq_get?, List.get?_eq_none] at hq
        simp at hq
      · have hd2 := h d (by rw [List.getLast?_cons_cons]; exact hq)
        exact ⟨d, List.mem_of_getLast?_eq_some hq, hd2⟩

/-! ### The stripped string has non-whitespace endpoints -/

theorem dropWhile_headNonWs (l : List Char) : headNonWs (l.dropWhile isWs) := by
  intro c h
  have h2 := List.head?_dropWhile_not isWs l
  rw [List.get?_zero] at h
  rw [h] at h2
  exact h2

theorem pyStripL_decomp (l : List Char) :
    l.dropWhile isWs =
      pyStripL l ++ ((l.dropWhile isWs).reverse.takeWhile isWs).reverse := by
  unfold pyStripL
  rw [← List.reverse_append, List.takeWhile_append_dropWhile, List.reverse_reverse]

theorem pyStripL_headNonWs (l : List Char) : headNonWs (pyStripL l) := by
  intro c h
  apply dropWhile_headNonWs l
  rw [pyStripL_decomp l]
  rw [List.get?_zero] at h ⊢
  rw [List.head?_append, h]
  rfl

theorem pyStripL_lastNonWs (l : List Char) : lastNonWs (pyStripL l) := by
  intro c h
  rw [← List.head?_reverse] at h
  unfold pyStripL at h
  rw [List.reverse_reverse] at h
  have h2 := List.head?_dropWhile_not isWs (l.dropWhile isWs).reverse
  rw [h] at h2
  exact h2

/-! ### The collapse pass produces single plain spaces, none trailing -/

theorem collapseAux_true_ne_nil (l : List Char)
    (h : ∃ e ∈ l, isWs e = false) : collapseAux true l ≠ [] := by
  induction l with
  | nil =>
      obtain ⟨e, he, _⟩ := h
      simp at he
  | cons c cs ih =>
      obtain ⟨e, he, hw⟩ := h
      by_cases hc : isWs c = true
      · rw [collapseAux_ws_t c cs hc]
        apply ih
        refine ⟨e, ?_, hw⟩
        rcases List.mem_cons.mp he with rfl | h2
        · rw [hw] at hc
          simp at hc
        · exact h2
      · have hc2 : isWs c = false := by
          cases hq : isWs c with
          | false => rfl
          | true => exact absurd hq hc
        rw [collapseAux_nws true c cs hc2]
        exact List.cons_ne_nil c _

theorem collapse_con (l : List Char) :
    lastNonWs l →
      (wsSpP (collapseAux false l) ∧ noAdjP (collapseAux false l) ∧
        noTrailP (collapseAux false l) ∧
        (∀ c, (collapseAux false l).get? 0 = some c → isWs c = true →
          ∃ c0, l.get? 0 = some c0 ∧ isWs c0 = true)) ∧
      (wsSpP (collapseAux true l) ∧ noAdjP (collapseAux true l) ∧
        noTrailP (collapseAux true l) ∧ headNonWs (collapseAux true l)) := by
  induction l with
  | nil =>
      intro _
      constructor
      · refine ⟨wsSpP_nil, noAdjP_nil, noTrailP_nil, ?_⟩
        intro c h _
        simp [collapseAux] at h
      · refine ⟨wsSpP_nil, noAdjP_nil, noTrailP_nil, ?_⟩
        intro c h
        simp [collapseAux] at h
  | cons c cs ih =>
      intro hl
      have ihc := ih (lastNonWs_tail c cs hl)
      by_cases hc : isWs c = true
      · have hex : ∃ e ∈ cs, isWs e = false := lastNonWs_mem c cs hl hc
        have hne : collapseAux true cs ≠ [] := collapseAux_true_ne_nil cs hex
        obtain ⟨_, ⟨t1, t2, t3, t4⟩⟩ := ihc
        constructor
        · rw [collapseAux_ws_f c cs hc]
          refine ⟨?_, ?_, ?_, ?_⟩
          · exact wsSpP_cons _ _ (fun _ => rfl) t1
          · refine noAdjP_cons _ _ ?_ t2
            intro _ h0
            exact absurd (t4 ' ' h0) (by decide)
          · exact noTrailP_cons _ _ (fun _ => hne) t3
          · intro d _ _
            exact ⟨c, rfl, hc⟩
        · rw [collapseAux_ws_t c cs hc]
          exact ⟨t1, t2, t3, t4⟩
      · have hc2 : isWs c = false := by
          cases hq : isWs c with
          | false => rfl
          | true => exact absurd hq hc
        obtain ⟨⟨f1, f2, f3, _⟩, _⟩ := ihc
        have hcond1 : isWs c = true → c = ' ' := by
          intro hw
          rw [hc2] at hw
          simp at hw
        have hcond2 : c ≠ ' ' := by
          intro hsp
          rw [hsp] at hc2
          exact absurd hc2 (by decide)
        constructor
        · rw [collapseAux_nws false c cs hc2]
          refine ⟨wsSpP_cons _ _ hcond1 f1,
            noAdjP_cons _ _ (fun hsp => absurd hsp hcond2) f2,
            noTrailP_cons _ _ (fun hsp => absurd hsp hcond2) f3, ?_⟩
          intro d h0 hw
          rw [List.get?_cons_zero, Option.some.injEq] at h0
          subst h0
          rw [hc2] at hw
          simp at hw
        · rw [collapseAux_nws true c cs hc2]
          refine ⟨wsSpP_cons _ _ hcond1 f1,
            noAdjP_cons _ _ (fun hsp => absurd hsp hcond2) f2,
            noTrailP_cons _ _ (fun hsp => absurd hsp hcond2) f3, ?_⟩
          intro d h0
          rw [List.get?_cons_zero, Option.some.injEq] at h0
          subst h0
          exact hc2

theorem sub3_head_ne_paren (l : List Char) : ∀ pend : List Char,
    (∀ c ∈ pend, isWs c = true) → (sub3 pend l).get? 0 ≠ some '(' := by
  induction l with
  | nil =>
      intro pend hp h
      rw [sub3_nil] at h
      cases pend with
      | nil => simp at h
      | cons e es =>
          rw [List.get?_cons_zero, Option.some.injEq] at h
          have h2 := hp e (List.mem_cons_self e es)
          rw [h] at h2
          exact absurd h2 (by decide)
  | cons c cs ih =>
      intro pend hp
      by_cases hw : isWs c = true
      · rw [sub3_ws pend c cs hw]
        apply ih
        intro d hd
        rcases List.mem_append.mp hd with h1 | h2
        · exact hp d h1
        · rw [List.mem_singleton] at h2
          subst h2
          exact hw
      · have hw2 : isWs c = false := by
          cases hq : isWs c with
          | false => rfl
          | true => exact absurd hq hw
        by_cases hpar : c = '('
        · subst hpar
          rw [sub3_paren]
          intro h
          rw [List.get?_cons_zero, Option.some.injEq] at h
          exact absurd h (by decide)
        · rw [sub3_other pend c cs hw2 hpar]
          intro h
          cases pend with
          | nil =>
              rw [List.nil_append, List.get?_cons_zero, Option.some.injEq] at h
              exact hpar h
          | cons e es =>
              rw [List.cons_append, List.get?_cons_zero, Option.some.injEq] at h
              have h2 := hp e (List.mem_cons_self e es)
              rw [h] at h2
              exact absurd h2 (by decide)

theorem sub3_con (l : List Char) :
    (wsSpP l → noAdjP l → noTrailP l →
      ((wsSpP (sub3 [] l) ∧ noAdjP (sub3 [] l) ∧ parenSpacedP (sub3 [] l) ∧
        noTrailP (sub3 [] l)) ∧
       (l.get? 0 ≠ some ' ' → headOkP (sub3 [] l)))) ∧
    (wsSpP l → noAdjP l → noTrailP l → headNonWs l → l ≠ [] →
      (wsSpP (sub3 [' '] l) ∧ noAdjP (sub3 [' '] l) ∧
        parenSpacedP (sub3 [' '] l) ∧ noTrailP (sub3 [' '] l))) := by
  have hpnil : ∀ c ∈ ([] : List Char), isWs c = true := by
    intro c hc
    simp at hc
  induction l with
  | nil =>
      constructor
      · intro _ _ _
        refine ⟨⟨wsSpP_nil, noAdjP_nil, parenSpacedP_nil, noTrailP_nil⟩, ?_⟩
        intro _ h0
        simp [sub3] at h0
      · intro _ _ _ _ hne
        exact absurd rfl hne
  | cons c cs ih =>
      constructor
      · intro h1 h2 h3
        by_cases hw : isWs c = true
        · -- a whitespace head is a space; the pending buffer takes it
          have hc : c = ' ' := h1 0 c rfl hw
          subst hc
          have hrw : sub3 [] (' ' :: cs) = sub3 [' '] cs := by
            rw [sub3_ws [] ' ' cs (by decide), List.nil_append]
          have hhd : headNonWs cs := by
            intro d hd
            cases hq : isWs d with
            | false => rfl
            | true =>
                have hd2 : d = ' ' := wsSpP_tail h1 0 d hd hq
                subst hd2
                exact absurd ⟨rfl, by rw [List.get?_cons_succ]; exact hd⟩ (h2 0)
          have hcsne : cs ≠ [] := by
            have h4 := h3 0 rfl
            rw [List.get?_cons_succ] at h4
            intro he
            subst he
            simp at h4
          have htb := ih.2 (wsSpP_tail h1) (noAdjP_tail h2) (noTrailP_tail h3)
            hhd hcsne
          rw [hrw]
          exact ⟨htb, fun hne => absurd rfl hne⟩
        · have hw2 : isWs c = false := by
            cases hq : isWs c with
            | false => rfl
            | true => exact absurd hq hw
          have hcne : c ≠ ' ' := by
            intro hsp
            rw [hsp] at hw2
            exact absurd hw2 (by decide)
          obtain ⟨⟨w1, w2, w3, w4⟩, _⟩ :=
            ih.1 (wsSpP_tail h1) (noAdjP_tail h2) (noTrailP_tail h3)
          have hwnp : (sub3 [] cs).get? 0 ≠ some '(' :=
            sub3_head_ne_paren cs [] hpnil
          by_cases hpar : c = '('
          · subst hpar
            rw [sub3_paren]
            refine ⟨⟨?_, ?_, ?_, ?_⟩, ?_⟩
            · exact wsSpP_cons _ _ (fun _ => rfl)
                (wsSpP_cons _ _ (fun hc => absurd hc (by decide)) w1)
            · refine noAdjP_cons _ _ ?_
                (noAdjP_cons _ _ (fun hc => absurd hc (by decide)) w2)
              intro _ h0
              rw [List.get?_cons_zero, Option.some.injEq] at h0
              exact absurd h0 (by decide)
            · exact parenSpacedP_sp_paren _ hwnp w3
            · exact noTrailP_cons _ _ (fun _ => List.cons_ne_nil _ _)
                (noTrailP_cons _ _ (fun hc => absurd hc (by decide)) w4)
            · intro _ _
              rfl
          · rw [sub3_other [] c cs hw2 hpar, List.nil_append]
            refine ⟨⟨?_, ?_, ?_, ?_⟩, ?_⟩
            · exact wsSpP_cons _ _ (fun hww => absurd hww (by rw [hw2]; simp)) w1
            · exact noAdjP_cons _ _ (fun hsp => absurd hsp hcne) w2
            · exact parenSpacedP_cons _ _ hpar (fun hh => absurd hh hwnp) w3
            · exact noTrailP_cons _ _ (fun hsp => absurd hsp hcne) w4
            · intro _ h0
              rw [List.get?_cons_zero, Option.some.injEq] at h0
              exact absurd h0 hcne
      · intro h1 h2 h3 h4 _
        have hw2 : isWs c = false := h4 c rfl
        obtain ⟨⟨w1, w2, w3, w4⟩, _⟩ :=
          ih.1 (wsSpP_tail h1) (noAdjP_tail h2) (noTrailP_tail h3)
        have hwnp : (sub3 [] cs).get? 0 ≠ some '(' :=
          sub3_head_ne_paren cs [] hpnil
        have hcne : c ≠ ' ' := by
          intro hsp
          rw [hsp] at hw2
          exact absurd hw2 (by decide)
        by_cases hpar : c = '('
        · subst hpar
          rw [sub3_paren]
          refine ⟨?_, ?_, ?_, ?_⟩
          · exact wsSpP_cons _ _ (fun _ => rfl)
              (wsSpP_cons _ _ (fun hc => absurd hc (by decide)) w1)
          · refine noAdjP_cons _ _ ?_
              (noAdjP_cons _ _ (fun hc => absurd hc (by decide)) w2)
            intro _ h0
            rw [List.get?_cons_zero, Option.some.injEq] at h0
            exact absurd h0 (by decide)
          · exact parenSpacedP_sp_paren _ hwnp w3
          · exact noTrailP_cons _ _ (fun _ => List.cons_ne_nil _ _)
              (noTrailP_cons _ _ (fun hc => absurd hc (by decide)) w4)
        · rw [sub3_other [' '] c cs hw2 hpar]
          have hsh : [' '] ++ c :: sub3 [] cs = ' ' :: c :: sub3 [] cs := rfl
          rw [hsh]
          refine ⟨?_, ?_, ?_, ?_⟩
          · exact wsSpP_cons _ _ (fun _ => rfl)
              (wsSpP_cons _ _ (fun hww => absurd hww (by rw [hw2]; simp)) w1)
          · refine noAdjP_cons _ _ ?_
              (noAdjP_cons _ _ (fun hsp => absurd hsp hcne) w2)
            intro _ h0
            rw [List.get?_cons_zero, Option.some.injEq] at h0
            exact absurd h0 hcne
          · exact parenSpacedP_cons _ _ (by decide) (fun _ => rfl)
              (parenSpacedP_cons _ _ hpar (fun hh => absurd hh hwnp) w3)
          · exact noTrailP_cons _ _ (fun _ => List.cons_ne_nil _ _)
              (noTrailP_cons _ _ (fun hsp => absurd hsp hcne) w4)

theorem sub3_spaceInv (l : List Char) (h1 : wsSpP l) (h2 : noAdjP l)
    (h3 : noTrailP l) (h4 : headNonWs l) : spaceInv (sub3 [] l) := by
  obtain ⟨⟨t1, t2, t3, t4⟩, hhead⟩ := (sub3_con l).1 h1 h2 h3
  refine ⟨t1, t2, t3, t4, hhead ?_⟩
  intro h0
  exact absurd (h4 ' ' h0) (by decide)

theorem collapseWs_spaceBase (l : List Char) (hhead : headNonWs l)
    (hlast : lastNonWs l) :
    wsSpP (collapseWs l) ∧ noAdjP (collapseWs l) ∧ noTrailP (collapseWs l) ∧
      headNonWs (collapseWs l) := by
  obtain ⟨⟨f1, f2, f3, f4⟩, _⟩ := collapse_con l hlast
  refine ⟨f1, f2, f3, ?_⟩
  intro d h0
  cases hq : isWs d with
  | false => rfl
  | true =>
      obtain ⟨c0, hc0, hw0⟩ := f4 d h0 hq
      exact absurd hw0 (by rw [hhead c0 hc0]; simp)

/-! ### Every `norm_name` output satisfies the space structure -/

theorem normBase_spaceInv (l : List Char) :
    spaceInv (sub3 [] (collapseWs (pyStripL l))) := by
  obtain ⟨b1, b2, b3, b4⟩ := collapseWs_spaceBase (pyStripL l)
    (pyStripL_headNonWs l) (pyStripL_lastNonWs l)
  exact sub3_spaceInv _ b1 b2 b3 b4

theorem normChars_spaceInv (l : List Char)
    (h : ∀ c ∈ l, List.lookup c upperSpecials = none) :
    spaceInv (normChars l) := by
  rw [normChars_eq_mapUpper l h]
  have h0 := normBase_spaceInv (l.map deaccentChar)
  have hKO := spaceInv_transfer _ _ (subKO_pointwise _) h0
  have hKA := spaceInv_transfer _ _ (subKA_pointwise _) hKO
  exact spaceInv_transfer _ _ (upperL_pointwise _) hKA

/-! ### Restoring a space-canonical string through the whitespace passes -/

theorem behead_cons_ne (c : Char) (r : List Char) (hc : c ≠ ' ') :
    behead (c :: r) = c :: r := by
  unfold behead
  split
  · rename_i u heq
    rw [List.cons.injEq] at heq
    exact absurd heq.1 hc
  · rfl

theorem addLead_ne (l : List Char) (h : l.get? 0 ≠ some '(') : addLead l = l := by
  unfold addLead
  split
  · exact absurd rfl h
  · rfl

theorem revStrip_of_lastNonWs (m : List Char) (h : lastNonWs m) :
    (m.reverse.dropWhile isWs).reverse = m := by
  cases hr : m.reverse with
  | nil =>
      have hm : m = [] := by
        have h2 := congrArg List.reverse hr
        rwa [List.reverse_reverse] at h2
      rw [hm]
      rfl
  | cons e es =>
      have he : isWs e = false := by
        apply h e
        rw [← List.head?_reverse, hr]
        rfl
      rw [List.dropWhile_cons, if_neg (by rw [he]; simp)]
      rw [← hr, List.reverse_reverse]

theorem spaceInv_lastNonWs (t : List Char) (h1 : wsSpP t) (h4 : noTrailP t) :
    lastNonWs t := by
  intro c hc
  cases hq : isWs c with
  | false => rfl
  | true =>
      rw [List.getLast?_eq_get?] at hc
      have hcsp : c = ' ' := h1 _ c hc hq
      subst hcsp
      have h5 := h4 _ hc
      exact absurd (by rw [List.get?_eq_none]; omega) h5

theorem behead_pyStripL (t : List Char) (h : spaceInv t) :
    pyStripL t = behead t := by
  obtain ⟨h1, h2, h3, h4, h5⟩ := h
  have hlast : lastNonWs t := spaceInv_lastNonWs t h1 h4
  cases t with
  | nil => rfl
  | cons c r =>
      by_cases hw : isWs c = true
      · have hc : c = ' ' := h1 0 c rfl hw
        subst hc
        have hr1 : r.get? 0 = some '(' := by
          have h6 := h5 rfl
          rw [List.get?_cons_succ] at h6
          exact h6
        show pyStripL (' ' :: r) = r
        unfold pyStripL
        rw [List.dropWhile_cons, if_pos (by decide)]
        cases r with
        | nil => simp at hr1
        | cons e es =>
            rw [List.get?_cons_zero, Option.some.injEq] at hr1
            subst hr1
            rw [List.dropWhile_cons, if_neg (by decide)]
            exact revStrip_of_lastNonWs ('(' :: es) (lastNonWs_tail ' ' _ hlast)
      · have hw2 : isWs c = false := by
          cases hq : isWs c with
          | false => rfl
          | true => exact absurd hq hw
        rw [behead_cons_ne c r
          (fun hsp => by rw [hsp] at hw2; exact absurd hw2 (by decide))]
        unfold pyStripL
        rw [List.dropWhile_cons, if_neg (by rw [hw2]; simp)]
        exact revStrip_of_lastNonWs (c :: r) hlast

theorem collapse_id (l : List Char) :
    (wsSpP l → noAdjP l → collapseAux false l = l) ∧
    (wsSpP l → noAdjP l → headNonWs l → collapseAux true l = l) := by
  induction l with
  | nil => exact ⟨fun _ _ => rfl, fun _ _ _ => rfl⟩
  | cons c cs ih =>
      constructor
      · intro h1 h2
        by_cases hw : isWs c = true
        · have hc : c = ' ' := h1 0 c rfl hw
          subst hc
          rw [collapseAux_ws_f ' ' cs (by decide)]
          have hhd : headNonWs cs := by
            intro d hd
            cases hq : isWs d with
            | false => rfl
            | true =>
                have hd2 : d = ' ' := wsSpP_tail h1 0 d hd hq
                subst hd2
                exact absurd ⟨rfl, by rw [List.get?_cons_succ]; exact hd⟩ (h2 0)
          rw [ih.2 (wsSpP_tail h1) (noAdjP_tail h2) hhd]
        · have hw2 : isWs c = false := by
            cases hq : isWs c with
            | false => rfl
            | true => exact absurd hq hw
          rw [collapseAux_nws false c cs hw2,
            ih.1 (wsSpP_tail h1) (noAdjP_tail h2)]
      · intro h1 h2 h3
        have hw2 : isWs c = false := h3 c rfl
        rw [collapseAux_nws true c cs hw2,
          ih.1 (wsSpP_tail h1) (noAdjP_tail h2)]

theorem sub3_restore (l : List Char) :
    (wsSpP l → noAdjP l → parenTailP l → sub3 [] l = addLead l) ∧
    (wsSpP l → noAdjP l → parenTailP l → headNonWs l →
      sub3 [' '] l = ' ' :: l) := by
  induction l with
  | nil => exact ⟨fun _ _ _ => rfl, fun _ _ _ _ => rfl⟩
  | cons c cs ih =>
      constructor
      · intro h1 h2 h3
        by_cases hw : isWs c = true
        · have hc : c = ' ' := h1 0 c rfl hw
          subst hc
          have hrw : sub3 [] (' ' :: cs) = sub3 [' '] cs := by
            rw [sub3_ws [] ' ' cs (by decide), List.nil_append]
          rw [hrw]
          have hhd : headNonWs cs := by
            intro d hd
            cases hq : isWs d with
            | false => rfl
            | true =>
                have hd2 : d = ' ' := wsSpP_tail h1 0 d hd hq
                subst hd2
                exact absurd ⟨rfl, by rw [List.get?_cons_succ]; exact hd⟩ (h2 0)
          rw [ih.2 (wsSpP_tail h1) (noAdjP_tail h2) (parenTailP_tail h3) hhd]
          rw [addLead_ne (' ' :: cs) (by
            intro hcontra
            rw [List.get?_cons_zero, Option.some.injEq] at hcontra
            exact absurd hcontra (by decide))]
        · have hw2 : isWs c = false := by
            cases hq : isWs c with
            | false => rfl
            | true => exact absurd hq hw
          by_cases hpar : c = '('
          · subst hpar
            rw [sub3_paren]
            have hcs0 : cs.get? 0 ≠ some '(' := by
              intro hcontra
              have h6 := h3 0 (by rw [List.get?_cons_succ]; exact hcontra)
              rw [List.get?_cons_zero, Option.some.injEq] at h6
              exact absurd h6 (by decide)
            rw [ih.1 (wsSpP_tail h1) (noAdjP_tail h2) (parenTailP_tail h3),
              addLead_ne cs hcs0]
            rfl
          · have hcs0 : cs.get? 0 ≠ some '(' := by
              intro hcontra
              have h6 := h3 0 (by rw [List.get?_cons_succ]; exact hcontra)
              rw [List.get?_cons_zero, Option.some.injEq] at h6
              subst h6
              exact absurd hw2 (by decide)
            rw [sub3_other [] c cs hw2 hpar, List.nil_append,
              ih.1 (wsSpP_tail h1) (noAdjP_tail h2) (parenTailP_tail h3),
              addLead_ne cs hcs0,
              addLead_ne (c :: cs) (by
                intro hcontra
                rw [List.get?_cons_zero, Option.some.injEq] at hcontra
                exact hpar hcontra)]
      · intro h1 h2 h3 h4
        have hw2 : isWs c = false := h4 c rfl
        by_cases hpar : c = '('
        · subst hpar
          rw [sub3_paren]
          have hcs0 : cs.get? 0 ≠ some '(' := by
            intro hcontra
            have h6 := h3 0 (by rw [List.get?_cons_succ]; exact hcontra)
            rw [List.get?_cons_zero, Option.some.injEq] at h6
            exact absurd h6 (by decide)
          rw [ih.1 (wsSpP_tail h1) (noAdjP_tail h2) (parenTailP_tail h3),
            addLead_ne cs hcs0]
        · have hcs0 : cs.get? 0 ≠ some '(' := by
            intro hcontra
            have h6 := h3 0 (by rw [List.get?_cons_succ]; exact hcontra)
            rw [List.get?_cons_zero, Option.some.injEq] at h6
            subst h6
            exact absurd hw2 (by decide)
          rw [sub3_other [' '] c cs hw2 hpar,
            ih.1 (wsSpP_tail h1) (noAdjP_tail h2) (parenTailP_tail h3),
            addLead_ne cs hcs0]
          rfl

theorem addLead_behead (t : List Char) (h3 : parenSpacedP t) (h5 : headOkP t) :
    addLead (behead t) = t := by
  cases t with
  | nil => rfl
  | cons c r =>
      by_cases hc : c = ' '
      · subst hc
        have hr0 : r.get? 0 = some '(' := by
          have h6 := h5 rfl
          rw [List.get?_cons_succ] at h6
          exact h6
        cases r with
        | nil => simp at hr0
        | cons e es =>
            rw [List.get?_cons_zero, Option.some.injEq] at hr0
            subst hr0
            rfl
      · rw [behead_cons_ne c r hc]
        apply addLead_ne
        intro hcontra
        rw [List.get?_cons_zero, Option.some.injEq] at hcontra
        subst hcontra
        exact absurd (h3 0 rfl).1 (by decide)

theorem spaceInv_restore (t : List Char) (h : spaceInv t) :
    sub3 [] (collapseWs (pyStripL t)) = t := by
  have hstrip := behead_pyStripL t h
  obtain ⟨h1, h2, h3, h4, h5⟩ := h
  rw [hstrip]
  have hb : wsSpP (behead t) ∧ noAdjP (behead t) ∧ parenTailP (behead t) := by
    cases t with
    | nil => exact ⟨h1, h2, parenTailP_of_spaced _ h3⟩
    | cons c r =>
        by_cases hc : c = ' '
        · subst hc
          exact ⟨wsSpP_tail h1, noAdjP_tail h2,
            parenTailP_tail (parenTailP_of_spaced _ h3)⟩
        · rw [behead_cons_ne c r hc]
          exact ⟨h1, h2, parenTailP_of_spaced _ h3⟩
  obtain ⟨b1, b2, b3⟩ := hb
  have hcol : collapseWs (behead t) = behead t :=
    (collapse_id (behead t)).1 b1 b2
  rw [hcol, (sub3_restore (behead t)).1 b1 b2 b3]
  exact addLead_behead t h3 h5

theorem normChars_of_canon (t : List Char)
    (ht : ∀ c ∈ t, List.lookup c upperSpecials = none)
    (hda : t.map deaccentChar = t) (hup : t.map upperChar = t)
    (hinv : spaceInv t) (hko : koCanonP t) (hka : kaCanonP t) :
    normChars t = t := by
  rw [normChars_eq_mapUpper t ht]
  rw [hda, spaceInv_restore t hinv, subKO_eq_self t hko,
    subKA_eq_self t hka, hup]

/-- **C4** counterexample: `norm_name` is not idempotent.  For the one-char
string ᾴ (U+1FB4), Python uppercases to ΆΙ (U+0386 U+0399); a second
`norm_name` pass de-accents the reintroduced Ά to Α, so
`norm_name (norm_name "ᾴ") = "ΑΙ" ≠ "ΆΙ" = norm_name "ᾴ"`. -/
theorem c4_iota_subscript_not_idempotent :
    norm_name (norm_name (String.mk ['ᾴ'])) ≠ norm_name (String.mk ['ᾴ']) := by
  show String.mk (normChars (normChars ['ᾴ'])) ≠ String.mk (normChars ['ᾴ'])
  intro h
  have h2 : normChars (normChars ['ᾴ']) = normChars ['ᾴ'] :=
    congrArg String.data h
  exact absurd h2 (by decide)

/-- **C4** (amended): `norm_name` is idempotent on every string none of
whose characters carries a multi-character uppercase special-casing
expansion reintroducing a de-accent-table character (the iota-subscript
vowels ᾴ, ῄ, ῴ): for such `s`, `norm_name (norm_name s) = norm_name s`. -/
theorem c4_norm_name_idempotent_no_special (s : String)
    (h : ∀ c ∈ s.data, List.lookup c upperSpecials = none) :
    norm_name (norm_name s) = norm_name s := by
  show String.mk (normChars (String.mk (normChars s.data)).data) =
    String.mk (normChars s.data)
  refine congrArg String.mk ?_
  show normChars (normChars s.data) = normChars s.data
  have hfix1 : ∀ c ∈ normChars s.data, deaccentChar c = id c :=
    fun c hc => (normChars_charFix s.data h hc).1
  have hfix2 : ∀ c ∈ normChars s.data, upperChar c = id c :=
    fun c hc => (normChars_charFix s.data h hc).2
  refine normChars_of_canon _ (normChars_avoid s.data h) ?_ ?_
    (normChars_spaceInv s.data h) ?_ ?_
  · rw [List.map_congr_left hfix1, List.map_id]
  · rw [List.map_congr_left hfix2, List.map_id]
  · rw [normChars_eq_mapUpper s.data h]
    exact koCanonP_upperL _ (koCanon_subKA _ (koCanon_subKO _))
  · rw [normChars_eq_mapUpper s.data h]
    exact kaCanonP_upperL _ (kaCanon_subKA _)

/-- Witness for the amended C4 statement: the messy but special-free
company string `" Αλφα  (κο) "` satisfies the hypothesis and `norm_name`
is idempotent on it. -/
theorem c4_norm_name_idempotent_no_special_witness :
    (∀ c ∈ (String.mk [' ', 'Α', 'λ', 'φ', 'α', ' ', ' ',
        '(', 'κ', 'ο', ')', ' ']).data,
      List.lookup c upperSpecials = none) ∧
    norm_name (norm_name (String.mk [' ', 'Α', 'λ', 'φ', 'α', ' ', ' ',
        '(', 'κ', 'ο', ')', ' '])) =
      norm_name (String.mk [' ', 'Α', 'λ', 'φ', 'α', ' ', ' ',
        '(', 'κ', 'ο', ')', ' ']) :=
  ⟨by decide,
   c4_norm_name_idempotent_no_special
     (String.mk [' ', 'Α', 'λ', 'φ', 'α', ' ', ' ', '(', 'κ', 'ο', ')', ' '])
     (by decide)⟩

end BlockTrades
